import Mathlib

/-!
# mypwd: reconstructing the path of a directory by inode chasing

A shallow embedding of `src/mypwd/mypwd.c`.  The C functions `openParent`,
`findEntryByInode`, `findNameByInode`, `printPathToChild` and `printDirName`
become Lean functions that pass the state of the process (`World`) explicitly.
The directory tree (`FS`) is a read-only parameter: the program never changes it.

* A descriptor is a natural number, an index into the descriptor table of the
  process; `openat` takes the lowest free slot, as POSIX prescribes.
* Every system or library call that the program checks (`fstat`, `openat`,
  `fdopendir`, `readdir`, `strdup`) consults a fault schedule before it does its work, so
  that each of them can be made to fail at any point of a run.
* `die` ends the process; a run that died is `Res.died line w`, where `line` is the
  source line of the `die_if` that fired and `w` the state at that moment.
* `printPathToChild` is recursive on a tree that need not be well founded, so it takes
  fuel: one unit per invocation.  `Res.fuelOut` is the run that needs more invocations.
-/

namespace Mypwd

/-! ## Data model -/

/-- The fields of `struct dirent` the program reads. -/
structure Dirent where
  d_ino : Nat
  d_name : String
deriving DecidableEq, Repr

/-- The fields of `struct stat` that identify a file: device and inode number. -/
structure Stat where
  st_dev : Nat
  st_ino : Nat
deriving DecidableEq, Repr

/-- One directory of the tree.  `parent` is the index of the directory that `..` denotes,
`entries` is the listing in the order `readdir` yields it.  `name` is the name the
directory goes by; the program never reads it, it only serves to state what the
expected path is. -/
structure Node where
  name : String
  st_dev : Nat
  st_ino : Nat
  parent : Nat
  entries : List Dirent
deriving DecidableEq, Repr

/-- A directory tree: directories are identified by their index. -/
abbrev FS := List Node

/-- What the process did, in order.  The log is a record only; nothing reads it. -/
inductive Event where
  | call (parentfd : Nat) (dir : Option Nat) (childinode : Nat)
  | opened (fd : Nat)
  | closed (fd : Nat)
  | wrote (s : String)
deriving DecidableEq, Repr

/-- The state of the process: descriptor table (slot `fd` holds the directory the
descriptor denotes, or `none` when it is closed), the text written to standard output,
the fault schedule and the log. -/
structure World where
  fds : List (Option Nat)
  out : String
  faults : List Bool
  log : List Event
deriving DecidableEq, Repr

/-- An open directory stream: the descriptor it owns and the entries not yet read. -/
structure DIR where
  fd : Nat
  rest : List Dirent
deriving DecidableEq, Repr

/-- Outcome of a run. -/
inductive Res (α : Type) where
  | ok (a : α) (w : World)
  | died (line : Nat) (w : World)
  | fuelOut (w : World)
deriving DecidableEq, Repr

/-- The state a run ended in. -/
def Res.world {α : Type} : Res α → World
  | .ok _ w => w
  | .died _ w => w
  | .fuelOut w => w

/-- How a run ended. -/
inductive Status where
  | returned
  | died (line : Nat)
  | fuelOut
deriving DecidableEq, Repr

/-- How the run ended. -/
def Res.status {α : Type} : Res α → Status
  | .ok _ _ => .returned
  | .died line _ => .died line
  | .fuelOut _ => .fuelOut

/-! ## Descriptor table -/

/-- The directory a descriptor denotes, `none` when the descriptor is not open. -/
def slotGet : List (Option Nat) → Nat → Option Nat
  | [], _ => none
  | s :: _, 0 => s
  | _ :: t, fd + 1 => slotGet t fd

/-- Put directory `d` in the lowest free slot; returns the new table and the slot. -/
def slotAlloc (d : Nat) : List (Option Nat) → List (Option Nat) × Nat
  | [] => ([some d], 0)
  | none :: t => (some d :: t, 0)
  | some x :: t => (some x :: (slotAlloc d t).1, (slotAlloc d t).2 + 1)

/-- Free slot `fd`. -/
def slotFree : List (Option Nat) → Nat → List (Option Nat)
  | [], _ => []
  | _ :: t, 0 => none :: t
  | s :: t, fd + 1 => s :: slotFree t fd

/-- Number of open descriptors. -/
def slotCount : List (Option Nat) → Nat
  | [] => 0
  | none :: t => slotCount t
  | some _ :: t => slotCount t + 1

/-- The open descriptors, in increasing order. -/
def slotOpen : List (Option Nat) → List Nat
  | [] => []
  | none :: t => (slotOpen t).map (· + 1)
  | some _ :: t => 0 :: (slotOpen t).map (· + 1)

/-! ## System and library calls -/

/-- Consult the fault schedule: the head says whether the call about to be made fails.
An exhausted schedule means no further call fails. -/
def World.tick (w : World) : Bool × World :=
  (w.faults.headD false, { w with faults := w.faults.tail })

/-- The directory node behind a descriptor. -/
def nodeOf (fs : FS) (w : World) (fd : Nat) : Option Node :=
  (slotGet w.fds fd).bind (fun d => fs[d]?)

/-- The call `fstat(fd, &st)`: `none` is a nonzero return value. -/
def fstat (fs : FS) (fd : Nat) (w : World) : Option Stat × World :=
  if w.tick.1 then (none, w.tick.2)
  else match nodeOf fs w fd with
    | none => (none, w.tick.2)
    | some nd => (some ⟨nd.st_dev, nd.st_ino⟩, w.tick.2)

/-- The function `openParent`, that is `openat(fd, "..", O_RDONLY|O_DIRECTORY)`:
`none` is a negative return value. -/
def openParent (fs : FS) (fd : Nat) (w : World) : Option Nat × World :=
  if w.tick.1 then (none, w.tick.2)
  else match nodeOf fs w fd with
    | none => (none, w.tick.2)
    | some nd =>
      (some (slotAlloc nd.parent w.fds).2,
        { w.tick.2 with
          fds := (slotAlloc nd.parent w.fds).1
          log := w.log ++ [Event.opened (slotAlloc nd.parent w.fds).2] })

/-- The call `fdopendir(fd)`: `none` is a `NULL` return value. -/
def fdopendir (fs : FS) (fd : Nat) (w : World) : Option DIR × World :=
  if w.tick.1 then (none, w.tick.2)
  else match nodeOf fs w fd with
    | none => (none, w.tick.2)
    | some nd => (some ⟨fd, nd.entries⟩, w.tick.2)

/-- The call `readdir(dirptr)` after `errno=0`: the entry (`none` is `NULL`), whether
`errno` is set afterwards, and the advanced stream. -/
def readdir (dirptr : DIR) (w : World) : Option Dirent × Bool × DIR × World :=
  if w.tick.1 then (none, true, dirptr, w.tick.2)
  else match dirptr.rest with
    | [] => (none, false, dirptr, w.tick.2)
    | e :: t => (some e, false, ⟨dirptr.fd, t⟩, w.tick.2)

/-- The call `strdup(s)`: `none` is a `NULL` return value. -/
def strdup (s : String) (w : World) : Option String × World :=
  if w.tick.1 then (none, w.tick.2) else (some s, w.tick.2)

/-- The call `closedir(dir)`: closes the descriptor the stream owns. -/
def closedir (dir : DIR) (w : World) : World :=
  { w with fds := slotFree w.fds dir.fd, log := w.log ++ [Event.closed dir.fd] }

/-- The call `printf` with the finished text `s`. -/
def printf (s : String) (w : World) : World :=
  { w with out := w.out ++ s, log := w.log ++ [Event.wrote s] }

/-! ## The program -/

/-- The `do ... while(deptr)` loop of `findEntryByInode`; `k` bounds the number of
`readdir` calls. -/
def findEntryByInodeLoop (inode : Nat) : Nat → DIR → World → Res (Option Dirent × DIR)
  | 0, _, w => .fuelOut w
  | k + 1, dirptr, w =>
    match readdir dirptr w with
    | (deptr, errno, dirptr1, w1) =>
      if deptr.isNone && errno then .died 105 w1
      else match deptr with
        | some e =>
          if e.d_ino = inode then .ok (some e, dirptr1) w1
          else findEntryByInodeLoop inode k dirptr1 w1
        | none => .ok (none, dirptr1) w1

/-- The function `findEntryByInode`: the loop reads each remaining entry at most once and
then reads the end of the stream once. -/
def findEntryByInode (dirptr : DIR) (inode : Nat) (w : World) : Res (Option Dirent × DIR) :=
  findEntryByInodeLoop inode (dirptr.rest.length + 1) dirptr w

/-- The function `findNameByInode`: `ok none` is a `NULL` return value. -/
def findNameByInode (fs : FS) (fd : Nat) (inode : Nat) (w : World) : Res (Option String) :=
  match fdopendir fs fd w with
  | (none, w1) => .died 127 w1
  | (some dir, w1) =>
    match findEntryByInode dir inode w1 with
    | .died line w2 => .died line w2
    | .fuelOut w2 => .fuelOut w2
    | .ok (none, _) w2 => .died 131 w2
    | .ok (some deptr, dir1) w2 =>
      match strdup deptr.d_name w2 with
      | (none, w3) => .died 134 w3
      | (some comp, w3) => .ok (some comp) (closedir dir1 w3)

/-- The function `printPathToChild`; each invocation takes one unit of fuel. -/
def printPathToChild (fs : FS) : Nat → Nat → Nat → World → Res Unit
  | 0, _, _, w => .fuelOut w
  | fuel + 1, parentfd, childinode, w =>
    match fstat fs parentfd
        { w with log := w.log ++ [Event.call parentfd (slotGet w.fds parentfd) childinode] } with
    | (none, w1) => .died 150 w1
    | (some st, w1) =>
      if st.st_ino ≠ childinode then
        match openParent fs parentfd w1 with
        | (none, w2) => .died 158 w2
        | (some gparentfd, w2) =>
          match findNameByInode fs parentfd childinode w2 with
          | .died line w3 => .died line w3
          | .fuelOut w3 => .fuelOut w3
          | .ok none w3 => .died 161 w3
          | .ok (some comp) w3 =>
            match printPathToChild fs fuel gparentfd st.st_ino w3 with
            | .died line w4 => .died line w4
            | .fuelOut w4 => .fuelOut w4
            | .ok _ w4 => .ok () (printf ("/" ++ comp) w4)
      else .ok () w1

/-- The function `printDirName`. -/
def printDirName (fs : FS) (fuel : Nat) (fd : Nat) (w : World) : Res Unit :=
  match fstat fs fd w with
  | (none, w1) => .died 180 w1
  | (some st, w1) =>
    match openParent fs fd w1 with
    | (none, w2) => .died 183 w2
    | (some parentfd, w2) =>
      match printPathToChild fs fuel parentfd st.st_ino w2 with
      | .died line w3 => .died line w3
      | .fuelOut w3 => .fuelOut w3
      | .ok _ w3 => .ok () (printf "\n" w3)

/-! ## Reading the log -/

/-- The descriptors that are open after the events `evs`, when `live` were open before:
`opened` adds one, `closed` takes one away (if it is there). -/
def track : List Nat → List Event → List Nat
  | live, [] => live
  | live, Event.opened fd :: es => track (fd :: live) es
  | live, Event.closed fd :: es => track (live.erase fd) es
  | live, Event.call _ _ _ :: es => track live es
  | live, Event.wrote _ :: es => track live es

/-- The invocations of `printPathToChild` in a log: the directory the descriptor denoted
and the child inode number asked for. -/
def callsOf : List Event → List (Option Nat × Nat)
  | [] => []
  | Event.call _ dir childinode :: es => (dir, childinode) :: callsOf es
  | _ :: es => callsOf es

/-! ## The tree as the reference sees it -/

/-- Directory `d` lies `n` levels below the root: climbing `..` from `d` reaches, after
exactly `n` steps and not earlier, a directory that is its own parent. -/
def atDepth (fs : FS) : Nat → Nat → Bool
  | 0, d =>
    match fs[d]? with
    | some nd => nd.parent == d
    | none => false
  | n + 1, d =>
    match fs[d]? with
    | some nd => nd.parent != d && atDepth fs n nd.parent
    | none => false

/-- The names of the last `n` directories on the way from the root to `d`, in
root-to-leaf order, read off the tree by climbing `..` from `d`. -/
def components (fs : FS) : Nat → Nat → List String
  | 0, _ => []
  | n + 1, d =>
    match fs[d]? with
    | some nd => components fs n nd.parent ++ [nd.name]
    | none => []

/-- The text `"/" ++ c1 ++ "/" ++ c2 ++ ... ++ "/" ++ cn` for the components `c1 .. cn`. -/
def renderPath (cs : List String) : String :=
  cs.foldl (fun acc c => acc ++ "/" ++ c) ""

/-- The first `k` steps of the climb from `d`: for each step the directory stepped to and
the inode number of the directory stepped from. -/
def climb (fs : FS) : Nat → Nat → List (Option Nat × Nat)
  | 0, _ => []
  | k + 1, d =>
    match fs[d]? with
    | some nd => (some nd.parent, nd.st_ino) :: climb fs k nd.parent
    | none => []

/-- Inode numbers are unique: no two directories of the tree share one. -/
def UniqueIno (fs : FS) : Prop :=
  (fs.map (fun nd => nd.st_ino)).Nodup

instance (fs : FS) : Decidable (UniqueIno fs) := by
  unfold UniqueIno
  infer_instance

/-- Every directory that is not its own parent is listed in its parent under its name
with its own inode number, and no other name in that listing bears this inode number. -/
def Listed (fs : FS) : Prop :=
  ∀ (i : Nat) (ni : Node), fs[i]? = some ni → ni.parent ≠ i →
    ∃ np, fs[ni.parent]? = some np ∧ (⟨ni.st_ino, ni.name⟩ : Dirent) ∈ np.entries ∧
      ∀ e ∈ np.entries, e.d_ino = ni.st_ino → e.d_name = ni.name

/-- The two trees are the same tree, up to the order in which each directory yields its
entries. -/
def SameTree : FS → FS → Prop
  | [], [] => True
  | a :: t1, b :: t2 =>
    (a.name = b.name ∧ a.st_dev = b.st_dev ∧ a.st_ino = b.st_ino ∧ a.parent = b.parent ∧
      a.entries.Perm b.entries) ∧ SameTree t1 t2
  | [], _ :: _ => False
  | _ :: _, [] => False

/-- Inode numbers are unique within the listing of each directory, the entries that stand
for the directory itself apart: `.`, and in the root `..` as well, bear the inode number
of the directory whose listing it is, and no scan ever looks for that number.  A listing
without any repeated inode number meets this. -/
def UniqueInListing (fs : FS) : Prop :=
  ∀ nd ∈ fs, ((nd.entries.filter (fun e => e.d_ino != nd.st_ino)).map (fun e => e.d_ino)).Nodup

/-! ## Predicates on runs -/

/-- The calls made between two states all succeeded: the schedule lost a run of `false`. -/
def Consumed (f f1 : List Bool) : Prop :=
  ∃ used, f = used ++ f1 ∧ ∀ b ∈ used, b = false

/-- What a run may have done to output and schedule: a run that returns has extended the
output and has seen no call fail; a run that stops otherwise has written nothing. -/
def Quiet {α : Type} (w : World) : Res α → Prop
  | .ok _ w1 => Consumed w.faults w1.faults ∧ ∃ s, w1.out = w.out ++ s
  | .died _ w1 => w1.out = w.out
  | .fuelOut w1 => w1.out = w.out

/-- At every point of the events `evs` at most `n` descriptors are open. -/
def Within (n : Nat) (live : List Nat) (evs : List Event) : Prop :=
  ∀ p q, evs = p ++ q → (track live p).length ≤ n

/-- The schedule `f` still holds its first failure, and `post` is what follows it: the
calls up to that failure succeed, the next one fails. -/
def Armed (post f : List Bool) : Prop :=
  ∃ pre, f = pre ++ true :: post ∧ ∀ b ∈ pre, b = false

/-- A run under a schedule that holds a failure: it died, or it ended before it made the
call that fails. -/
def Struck {α : Type} (post : List Bool) : Res α → Prop
  | .died _ _ => True
  | .ok _ w1 => Armed post w1.faults
  | .fuelOut w1 => Armed post w1.faults

/-! ## Example trees -/

/-- The tree `/a/b/c`: directory 0 is the root, 1 is `a`, 2 is `b`, 3 is `c`.  Every
listing starts with `.` and `..`; `a` also holds a directory-less entry `x`. -/
def abcTree : FS :=
  [ ⟨"", 0, 2, 0, [⟨2, "."⟩, ⟨2, ".."⟩, ⟨11, "a"⟩]⟩,
    ⟨"a", 0, 11, 0, [⟨11, "."⟩, ⟨2, ".."⟩, ⟨40, "x"⟩, ⟨12, "b"⟩]⟩,
    ⟨"b", 0, 12, 1, [⟨12, "."⟩, ⟨11, ".."⟩, ⟨13, "c"⟩]⟩,
    ⟨"c", 0, 13, 2, [⟨13, "."⟩, ⟨12, ".."⟩]⟩ ]

/-- The tree `/a/b/c` again, each directory yielding the same entries in another order. -/
def abcTreeShuffled : FS :=
  [ ⟨"", 0, 2, 0, [⟨11, "a"⟩, ⟨2, ".."⟩, ⟨2, "."⟩]⟩,
    ⟨"a", 0, 11, 0, [⟨12, "b"⟩, ⟨40, "x"⟩, ⟨2, ".."⟩, ⟨11, "."⟩]⟩,
    ⟨"b", 0, 12, 1, [⟨13, "c"⟩, ⟨12, "."⟩, ⟨11, ".."⟩]⟩,
    ⟨"c", 0, 13, 2, [⟨12, ".."⟩, ⟨13, "."⟩]⟩ ]

/-- A root directory (device 0, inode 2) with the root directory of another filesystem
(device 1, inode 2 as well) mounted on its entry `mnt`, which holds a directory `x`. -/
def mountTree : FS :=
  [ ⟨"", 0, 2, 0, [⟨2, "."⟩, ⟨2, ".."⟩, ⟨2, "mnt"⟩]⟩,
    ⟨"mnt", 1, 2, 0, [⟨2, "."⟩, ⟨2, ".."⟩, ⟨5, "x"⟩]⟩,
    ⟨"x", 1, 5, 1, [⟨5, "."⟩, ⟨2, ".."⟩]⟩ ]

/-- A process whose only open descriptor, 0, denotes directory `d`; nothing written yet,
no call fails. -/
def handleOn (d : Nat) : World := ⟨[some d], "", [], []⟩

/-! ## Basic facts about the calls -/

theorem tick_of_noFault (w : World) (h : w.faults = []) : w.tick = (false, w) := by
  cases w
  simp only [World.tick] at *
  subst h
  rfl

@[simp]
theorem tick_fds (w : World) : w.tick.2.fds = w.fds := rfl

@[simp]
theorem tick_out (w : World) : w.tick.2.out = w.out := rfl

@[simp]
theorem tick_log (w : World) : w.tick.2.log = w.log := rfl

theorem fstat_noFault (fs : FS) (fd : Nat) (w : World) (h : w.faults = []) (nd : Node)
    (hn : nodeOf fs w fd = some nd) :
    fstat fs fd w = (some ⟨nd.st_dev, nd.st_ino⟩, w) := by
  simp [fstat, tick_of_noFault w h, hn]

theorem fdopendir_noFault (fs : FS) (fd : Nat) (w : World) (h : w.faults = []) (nd : Node)
    (hn : nodeOf fs w fd = some nd) :
    fdopendir fs fd w = (some ⟨fd, nd.entries⟩, w) := by
  simp [fdopendir, tick_of_noFault w h, hn]

theorem strdup_noFault (s : String) (w : World) (h : w.faults = []) :
    strdup s w = (some s, w) := by
  simp [strdup, tick_of_noFault w h]

/-- Without faults the loop finds the first entry bearing the inode number and leaves
the entries behind it unread; `k` calls of `readdir` are enough once `k` exceeds the
number of entries. -/
theorem findEntryByInodeLoop_noFault (inode fd : Nat) (w : World) (h : w.faults = []) :
    ∀ (rest : List Dirent) (k : Nat), rest.length < k →
      findEntryByInodeLoop inode k ⟨fd, rest⟩ w =
        .ok (rest.find? (fun e => decide (e.d_ino = inode)),
             ⟨fd, (rest.dropWhile (fun e => !decide (e.d_ino = inode))).tail⟩) w := by
  intro rest
  induction rest with
  | nil =>
    intro k hk
    obtain ⟨k, rfl⟩ : ∃ j, k = j + 1 := ⟨k - 1, by simp at hk; omega⟩
    simp [findEntryByInodeLoop, readdir, tick_of_noFault w h]
  | cons e t ih =>
    intro k hk
    obtain ⟨k, rfl⟩ : ∃ j, k = j + 1 := ⟨k - 1, by simp at hk; omega⟩
    have hk2 : t.length < k := by simp at hk; omega
    by_cases he : e.d_ino = inode
    · simp [findEntryByInodeLoop, readdir, tick_of_noFault w h, he]
    · simp [findEntryByInodeLoop, readdir, tick_of_noFault w h, he, ih k hk2]

theorem findEntryByInode_noFault (inode fd : Nat) (w : World) (h : w.faults = [])
    (rest : List Dirent) :
    findEntryByInode ⟨fd, rest⟩ inode w =
      .ok (rest.find? (fun e => decide (e.d_ino = inode)),
           ⟨fd, (rest.dropWhile (fun e => !decide (e.d_ino = inode))).tail⟩) w :=
  findEntryByInodeLoop_noFault inode fd w h rest _ (Nat.lt_succ_self _)

/-- Splitting a listing at the first entry that bears the inode number. -/
theorem split_at_first (inode : Nat) :
    ∀ (l : List Dirent), (∃ x ∈ l, x.d_ino = inode) →
      ∃ pre e post, l = pre ++ e :: post ∧ e.d_ino = inode ∧ (∀ x ∈ pre, x.d_ino ≠ inode) ∧
        l.find? (fun e => decide (e.d_ino = inode)) = some e ∧
        (l.dropWhile (fun e => !decide (e.d_ino = inode))).tail = post := by
  intro l
  induction l with
  | nil => simp
  | cons a t ih =>
    intro hx
    by_cases ha : a.d_ino = inode
    · exact ⟨[], a, t, by simp, ha, by simp, by simp [ha], by simp [ha]⟩
    · have : ∃ x ∈ t, x.d_ino = inode := by
        obtain ⟨x, hx1, hx2⟩ := hx
        rcases List.mem_cons.1 hx1 with rfl | hx1
        · exact absurd hx2 ha
        · exact ⟨x, hx1, hx2⟩
      obtain ⟨pre, e, post, h1, h2, h3, h4, h5⟩ := ih this
      refine ⟨a :: pre, e, post, by simp [h1], h2, ?_, by simp [ha, h4], by simp [ha, h5]⟩
      intro x hx1
      rcases List.mem_cons.1 hx1 with rfl | hx1
      · exact ha
      · exact h3 x hx1

theorem findNameByInode_noFault (fs : FS) (fd inode : Nat) (w : World) (h : w.faults = [])
    (nd : Node) (hn : nodeOf fs w fd = some nd) :
    findNameByInode fs fd inode w =
      match nd.entries.find? (fun e => decide (e.d_ino = inode)) with
      | none => .died 131 w
      | some e => .ok (some e.d_name)
          (closedir ⟨fd, (nd.entries.dropWhile (fun e => !decide (e.d_ino = inode))).tail⟩ w) := by
  simp only [findNameByInode, fdopendir_noFault fs fd w h nd hn,
    findEntryByInode_noFault inode fd w h]
  cases hfind : nd.entries.find? (fun e => decide (e.d_ino = inode)) with
  | none => rfl
  | some e => simp [strdup_noFault _ w h]

/-! ## Output and fault schedule along a run -/

theorem Consumed.trans {f g h : List Bool} (a : Consumed f g) (b : Consumed g h) :
    Consumed f h := by
  obtain ⟨u, hu, hu2⟩ := a
  obtain ⟨v, hv, hv2⟩ := b
  refine ⟨u ++ v, by simp [hu, hv], ?_⟩
  intro x hx
  rcases List.mem_append.1 hx with hx | hx
  · exact hu2 x hx
  · exact hv2 x hx

theorem tick_consumed (w : World) (h : w.tick.1 = false) :
    Consumed w.faults w.tick.2.faults := by
  cases w with
  | mk fds out faults log =>
    cases faults with
    | nil => exact ⟨[], by simp [World.tick], by simp⟩
    | cons b t =>
      simp only [World.tick, List.headD_cons] at h
      subst h
      exact ⟨[false], by simp [World.tick], by simp⟩

theorem fstat_snd (fs : FS) (fd : Nat) (w : World) : (fstat fs fd w).2 = w.tick.2 := by
  unfold fstat
  split
  · rfl
  · split <;> rfl

theorem fstat_some (fs : FS) (fd : Nat) (w : World) (st : Stat) (w1 : World)
    (h : fstat fs fd w = (some st, w1)) :
    w.tick.1 = false ∧ w1 = w.tick.2 ∧
      ∃ nd, nodeOf fs w fd = some nd ∧ st = ⟨nd.st_dev, nd.st_ino⟩ := by
  unfold fstat at h
  split at h
  · simp at h
  · next hf =>
    split at h
    · simp at h
    · next nd hn =>
      simp only [Prod.mk.injEq, Option.some.injEq] at h
      exact ⟨by simpa using hf, h.2.symm, nd, hn, h.1.symm⟩

theorem openParent_none (fs : FS) (fd : Nat) (w w1 : World)
    (h : openParent fs fd w = (none, w1)) : w1 = w.tick.2 := by
  unfold openParent at h
  split at h
  · simp at h; exact h.symm
  · split at h
    · simp at h; exact h.symm
    · simp at h

theorem openParent_some (fs : FS) (fd : Nat) (w : World) (g : Nat) (w1 : World)
    (h : openParent fs fd w = (some g, w1)) :
    w.tick.1 = false ∧ ∃ nd, nodeOf fs w fd = some nd ∧ g = (slotAlloc nd.parent w.fds).2 ∧
      w1 = { w.tick.2 with
             fds := (slotAlloc nd.parent w.fds).1
             log := w.log ++ [Event.opened g] } := by
  unfold openParent at h
  split at h
  · simp at h
  · next hf =>
    split at h
    · simp at h
    · next nd hn =>
      simp only [Prod.mk.injEq, Option.some.injEq] at h
      refine ⟨by simpa using hf, nd, hn, h.1.symm, ?_⟩
      rw [← h.1]
      exact h.2.symm

theorem fdopendir_snd (fs : FS) (fd : Nat) (w : World) : (fdopendir fs fd w).2 = w.tick.2 := by
  unfold fdopendir
  split
  · rfl
  · split <;> rfl

theorem fdopendir_some (fs : FS) (fd : Nat) (w : World) (dir : DIR) (w1 : World)
    (h : fdopendir fs fd w = (some dir, w1)) :
    w.tick.1 = false ∧ w1 = w.tick.2 ∧ dir.fd = fd := by
  unfold fdopendir at h
  split at h
  · simp at h
  · next hf =>
    split at h
    · simp at h
    · simp only [Prod.mk.injEq, Option.some.injEq] at h
      exact ⟨by simpa using hf, h.2.symm, by rw [← h.1]⟩

/-- The scan writes nothing, keeps table and log, and stays on the descriptor of the
stream; when it returns, every `readdir` succeeded. -/
theorem findEntryByInodeLoop_frame (inode : Nat) :
    ∀ (k : Nat) (dirptr : DIR) (w : World),
      (findEntryByInodeLoop inode k dirptr w).world.out = w.out ∧
      (findEntryByInodeLoop inode k dirptr w).world.fds = w.fds ∧
      (findEntryByInodeLoop inode k dirptr w).world.log = w.log ∧
      ∀ deptr dir1 w1, findEntryByInodeLoop inode k dirptr w = .ok (deptr, dir1) w1 →
        Consumed w.faults w1.faults ∧ dir1.fd = dirptr.fd := by
  intro k
  induction k with
  | zero =>
    intro dirptr w
    simp [findEntryByInodeLoop, Res.world]
  | succ k ih =>
    intro dirptr w
    unfold findEntryByInodeLoop readdir
    by_cases hf : w.tick.1 = true
    · simp [hf, Res.world]
    · have hf2 : w.tick.1 = false := by simpa using hf
      have hc := tick_consumed w hf2
      cases hrest : dirptr.rest with
      | nil =>
        simp only [hf2, Bool.false_eq_true, if_false, Option.isNone_none, Bool.and_false,
          Res.world, tick_out, tick_fds, tick_log, true_and]
        intro deptr dir1 w1 h
        simp only [Res.ok.injEq, Prod.mk.injEq] at h
        rw [← h.2, ← h.1.2]
        exact ⟨hc, rfl⟩
      | cons e t =>
        by_cases he : e.d_ino = inode
        · simp only [hf2, Bool.false_eq_true, if_false, Option.isNone_some, Bool.false_and,
            he, if_true, Res.world, tick_out, tick_fds, tick_log, true_and]
          intro deptr dir1 w1 h
          simp only [Res.ok.injEq, Prod.mk.injEq] at h
          rw [← h.2, ← h.1.2]
          exact ⟨hc, rfl⟩
        · simp only [hf2, Bool.false_eq_true, if_false, Option.isNone_some, Bool.false_and,
            he]
          obtain ⟨h1, h2, h3, h4⟩ := ih ⟨dirptr.fd, t⟩ w.tick.2
          refine ⟨by simpa using h1, by simpa using h2, by simpa using h3, ?_⟩
          intro deptr dir1 w1 h
          obtain ⟨h5, h6⟩ := h4 deptr dir1 w1 h
          exact ⟨hc.trans h5, h6⟩

/-- The scan always returns or dies: the bound on `readdir` calls is never reached. -/
theorem findEntryByInode_total (dirptr : DIR) (inode : Nat) (w : World) (w1 : World) :
    findEntryByInode dirptr inode w ≠ .fuelOut w1 := by
  have key : ∀ (rest : List Dirent) (k : Nat) (fd : Nat) (w : World), rest.length < k →
      findEntryByInodeLoop inode k ⟨fd, rest⟩ w ≠ .fuelOut w1 := by
    intro rest
    induction rest with
    | nil =>
      intro k fd w hk
      obtain ⟨k, rfl⟩ : ∃ j, k = j + 1 := ⟨k - 1, by simp at hk; omega⟩
      unfold findEntryByInodeLoop readdir
      by_cases hf : w.tick.1 = true <;> simp [hf]
    | cons e t ih =>
      intro k fd w hk
      obtain ⟨k, rfl⟩ : ∃ j, k = j + 1 := ⟨k - 1, by simp at hk; omega⟩
      have hk2 : t.length < k := by simp at hk; omega
      unfold findEntryByInodeLoop readdir
      by_cases hf : w.tick.1 = true
      · simp [hf]
      · by_cases he : e.d_ino = inode
        · simp [hf, he]
        · simpa [hf, he] using ih k fd w.tick.2 hk2
  exact key dirptr.rest _ dirptr.fd w (Nat.lt_succ_self _)

/-- All outcomes of `findNameByInode`: it dies with table, output and log untouched, or it
returns a name after `closedir` on the descriptor it was given, every call having
succeeded. -/
theorem findNameByInode_cases (fs : FS) (fd inode : Nat) (w : World) :
    (∃ line w1, findNameByInode fs fd inode w = .died line w1 ∧
        w1.out = w.out ∧ w1.fds = w.fds ∧ w1.log = w.log) ∨
    (∃ comp rest w1, findNameByInode fs fd inode w = .ok (some comp) (closedir ⟨fd, rest⟩ w1) ∧
        w1.out = w.out ∧ w1.fds = w.fds ∧ w1.log = w.log ∧
        Consumed w.faults w1.faults) := by
  unfold findNameByInode
  split
  · next w1 h =>
    have := fdopendir_snd fs fd w
    rw [h] at this
    simp only at this
    exact Or.inl ⟨127, w1, rfl, by simp [this]⟩
  · next dir w1 h =>
    obtain ⟨hf, hw1, hfd⟩ := fdopendir_some fs fd w dir w1 h
    have hc1 := tick_consumed w hf
    obtain ⟨f1, f2, f3, f4⟩ := findEntryByInodeLoop_frame inode (dir.rest.length + 1) dir w1
    have e1 : w1.out = w.out := by simp [hw1]
    have e2 : w1.fds = w.fds := by simp [hw1]
    have e3 : w1.log = w.log := by simp [hw1]
    rw [← hw1] at hc1
    split
    · next line w2 h2 =>
      unfold findEntryByInode at h2
      rw [h2] at f1 f2 f3
      exact Or.inl ⟨line, w2, rfl, by simpa [Res.world, e1] using f1,
        by simpa [Res.world, e2] using f2, by simpa [Res.world, e3] using f3⟩
    · next w2 h2 => exact absurd h2 (findEntryByInode_total dir inode w1 w2)
    · next d1 w2 h2 =>
      unfold findEntryByInode at h2
      rw [h2] at f1 f2 f3
      exact Or.inl ⟨131, w2, rfl, by simpa [Res.world, e1] using f1,
        by simpa [Res.world, e2] using f2, by simpa [Res.world, e3] using f3⟩
    · next deptr dir1 w2 h2 =>
      unfold findEntryByInode at h2
      obtain ⟨hc2, hfd2⟩ := f4 _ _ _ h2
      rw [h2] at f1 f2 f3
      simp only [Res.world] at f1 f2 f3
      unfold strdup
      by_cases hf3 : w2.tick.1 = true
      · simp only [hf3, if_true]
        exact Or.inl ⟨134, w2.tick.2, rfl, by simp [f1, e1], by simp [f2, e2],
          by simp [f3, e3]⟩
      · have hf4 : w2.tick.1 = false := by simpa using hf3
        simp only [hf4, Bool.false_eq_true, if_false]
        refine Or.inr ⟨deptr.d_name, dir1.rest, w2.tick.2, ?_, by simp [f1, e1],
          by simp [f2, e2], by simp [f3, e3], (hc1.trans hc2).trans (tick_consumed w2 hf4)⟩
        have : dir1 = ⟨fd, dir1.rest⟩ := by
          cases dir1
          simp only [DIR.mk.injEq, and_true]
          simpa [hfd] using hfd2
        rw [← this]

/-- An entry the scan returns is an entry of the stream and bears the inode number. -/
theorem findEntryByInodeLoop_found (inode : Nat) :
    ∀ (k : Nat) (dirptr : DIR) (w : World) (e : Dirent) (dir1 : DIR) (w1 : World),
      findEntryByInodeLoop inode k dirptr w = .ok (some e, dir1) w1 →
        e ∈ dirptr.rest ∧ e.d_ino = inode := by
  intro k
  induction k with
  | zero =>
    intro dirptr w e dir1 w1 h
    simp [findEntryByInodeLoop] at h
  | succ k ih =>
    intro dirptr w e dir1 w1 h
    unfold findEntryByInodeLoop readdir at h
    by_cases hf : w.tick.1 = true
    · simp [hf] at h
    · have hf2 : w.tick.1 = false := by simpa using hf
      cases hrest : dirptr.rest with
      | nil => simp [hf2, hrest] at h
      | cons x t =>
        by_cases hx : x.d_ino = inode
        · simp only [hf2, hrest, Bool.false_eq_true, if_false, Option.isNone_some,
            Bool.false_and, hx, if_true, Res.ok.injEq, Prod.mk.injEq,
            Option.some.injEq] at h
          rw [← h.1.1]
          exact ⟨by simp, hx⟩
        · simp only [hf2, hrest, Bool.false_eq_true, if_false, Option.isNone_some,
            Bool.false_and, hx] at h
          obtain ⟨h1, h2⟩ := ih ⟨dirptr.fd, t⟩ w.tick.2 e dir1 w1 h
          exact ⟨List.mem_cons_of_mem _ h1, h2⟩

/-- A name `findNameByInode` returns is the name of an entry of the directory behind the
descriptor that bears the inode number. -/
theorem findNameByInode_found (fs : FS) (fd inode : Nat) (w w1 : World) (comp : String)
    (h : findNameByInode fs fd inode w = .ok (some comp) w1) :
    ∃ nd e, nodeOf fs w fd = some nd ∧ e ∈ nd.entries ∧ e.d_ino = inode ∧
      comp = e.d_name := by
  unfold findNameByInode fdopendir at h
  by_cases hf : w.tick.1 = true
  · simp [hf] at h
  · have hf2 : w.tick.1 = false := by simpa using hf
    cases hn : nodeOf fs w fd with
    | none => simp [hf2, hn] at h
    | some nd =>
      simp only [hf2, hn, Bool.false_eq_true, if_false] at h
      split at h
      · simp at h
      · simp at h
      · simp at h
      · next deptr dir1 w2 h2 =>
        obtain ⟨h3, h4⟩ := findEntryByInodeLoop_found inode _ _ _ _ _ _ h2
        refine ⟨nd, deptr, rfl, h3, h4, ?_⟩
        unfold strdup at h
        by_cases hf3 : w2.tick.1 = true
        · simp [hf3] at h
        · simp only [hf3, Bool.false_eq_true, if_false, Res.ok.injEq,
            Option.some.injEq] at h
          exact h.1.symm

/-- A run of `printPathToChild` that does not return has written nothing; one that
returns has only extended the output, after every call made succeeded. -/
theorem printPathToChild_quiet (fs : FS) :
    ∀ (fuel parentfd childinode : Nat) (w : World),
      Quiet w (printPathToChild fs fuel parentfd childinode w) := by
  intro fuel
  induction fuel with
  | zero =>
    intro p c w
    simp [printPathToChild, Quiet]
  | succ fuel ih =>
    intro p c w
    rw [printPathToChild]
    split
    · next w1 h =>
      have := fstat_snd fs p { w with log := w.log ++ [Event.call p (slotGet w.fds p) c] }
      rw [h] at this
      simp only at this
      simp [Quiet, this]
    · next st w1 h =>
      obtain ⟨hf, hw1, -⟩ := fstat_some fs p _ st w1 h
      have hc1 : Consumed w.faults w1.faults := by
        rw [hw1]
        exact tick_consumed _ hf
      have ho1 : w1.out = w.out := by rw [hw1]; rfl
      split
      · split
        · next w2 h2 =>
          have := openParent_none fs p w1 w2 h2
          simp [Quiet, this, ho1]
        · next g w2 h2 =>
          obtain ⟨hf2, nd, -, -, hw2⟩ := openParent_some fs p w1 g w2 h2
          have hc2 : Consumed w.faults w2.faults := by
            rw [hw2]
            exact hc1.trans (tick_consumed _ hf2)
          have ho2 : w2.out = w.out := by rw [hw2]; exact ho1
          rcases findNameByInode_cases fs p c w2 with
            ⟨line, w3, h3, e1, -, -⟩ | ⟨comp, rest, w3, h3, e1, -, -, hc3⟩
          · rw [h3]
            simp [Quiet, e1, ho2]
          · rw [h3]
            simp only
            have hq := ih g st.st_ino (closedir ⟨p, rest⟩ w3)
            cases hrec : printPathToChild fs fuel g st.st_ino (closedir ⟨p, rest⟩ w3) with
            | died line w4 =>
              rw [hrec] at hq
              simp only [Quiet] at hq ⊢
              rw [hq]
              simp [closedir, e1, ho2]
            | fuelOut w4 =>
              rw [hrec] at hq
              simp only [Quiet] at hq ⊢
              rw [hq]
              simp [closedir, e1, ho2]
            | ok u w4 =>
              rw [hrec] at hq
              simp only [Quiet] at hq ⊢
              obtain ⟨hc4, s, hs⟩ := hq
              refine ⟨(hc2.trans hc3).trans hc4, s ++ ("/" ++ comp), ?_⟩
              simp only [printf, hs, closedir, e1, ho2, String.append_assoc]
      · simp only [Quiet]
        exact ⟨hc1, "", by simp [ho1]⟩

/-- The same for `printDirName`. -/
theorem printDirName_quiet (fs : FS) (fuel fd : Nat) (w : World) :
    Quiet w (printDirName fs fuel fd w) := by
  unfold printDirName
  split
  · next w1 h =>
    have := fstat_snd fs fd w
    rw [h] at this
    simp only at this
    simp [Quiet, this]
  · next st w1 h =>
    obtain ⟨hf, hw1, -⟩ := fstat_some fs fd _ st w1 h
    have hc1 : Consumed w.faults w1.faults := by
      rw [hw1]
      exact tick_consumed _ hf
    have ho1 : w1.out = w.out := by rw [hw1]; rfl
    split
    · next w2 h2 =>
      have := openParent_none fs fd w1 w2 h2
      simp [Quiet, this, ho1]
    · next g w2 h2 =>
      obtain ⟨hf2, nd, -, -, hw2⟩ := openParent_some fs fd w1 g w2 h2
      have hc2 : Consumed w.faults w2.faults := by
        rw [hw2]
        exact hc1.trans (tick_consumed _ hf2)
      have ho2 : w2.out = w.out := by rw [hw2]; exact ho1
      have hq := printPathToChild_quiet fs fuel g st.st_ino w2
      cases hrec : printPathToChild fs fuel g st.st_ino w2 with
      | died line w4 =>
        rw [hrec] at hq
        simp only [Quiet] at hq ⊢
        rw [hq, ho2]
      | fuelOut w4 =>
        rw [hrec] at hq
        simp only [Quiet] at hq ⊢
        rw [hq, ho2]
      | ok u w4 =>
        rw [hrec] at hq
        simp only [Quiet] at hq ⊢
        obtain ⟨hc4, s, hs⟩ := hq
        refine ⟨hc2.trans hc4, s ++ "\n", ?_⟩
        simp only [printf, hs, ho2, String.append_assoc]

/-! ## A failing call is fatal -/

theorem tick_armed (post : List Bool) (w : World) (h : Armed post w.faults) :
    w.tick.1 = true ∨ (w.tick.1 = false ∧ Armed post w.tick.2.faults) := by
  obtain ⟨pre, hpre, hall⟩ := h
  cases pre with
  | nil =>
    left
    simp [World.tick, hpre]
  | cons b t =>
    right
    have hb : b = false := hall b (by simp)
    subst hb
    refine ⟨by simp [World.tick, hpre], t, by simp [World.tick, hpre], ?_⟩
    intro x hx
    exact hall x (List.mem_cons_of_mem _ hx)

theorem findEntryByInodeLoop_struck (post : List Bool) (inode : Nat) :
    ∀ (k : Nat) (dirptr : DIR) (w : World), Armed post w.faults →
      Struck post (findEntryByInodeLoop inode k dirptr w) := by
  intro k
  induction k with
  | zero =>
    intro dirptr w h
    simpa [findEntryByInodeLoop, Struck] using h
  | succ k ih =>
    intro dirptr w h
    unfold findEntryByInodeLoop readdir
    rcases tick_armed post w h with hf | ⟨hf, ha⟩
    · simp [hf, Struck]
    · cases hrest : dirptr.rest with
      | nil => simpa [hf, Struck] using ha
      | cons e t =>
        by_cases he : e.d_ino = inode
        · simpa [hf, he, Struck] using ha
        · simpa [hf, he] using ih ⟨dirptr.fd, t⟩ w.tick.2 ha

theorem findNameByInode_struck (post : List Bool) (fs : FS) (fd inode : Nat) (w : World)
    (h : Armed post w.faults) : Struck post (findNameByInode fs fd inode w) := by
  unfold findNameByInode
  split
  · simp [Struck]
  · next dir w1 h1 =>
    obtain ⟨hf, hw1, -⟩ := fdopendir_some fs fd w dir w1 h1
    have ha1 : Armed post w1.faults := by
      rcases tick_armed post w h with hf2 | ⟨-, ha⟩
      · rw [hf] at hf2
        exact absurd hf2 (by simp)
      · rw [hw1]
        exact ha
    have hs := findEntryByInodeLoop_struck post inode (dir.rest.length + 1) dir w1 ha1
    split
    · simp [Struck]
    · next w2 h2 =>
      unfold findEntryByInode at h2
      rw [h2] at hs
      exact hs
    · simp [Struck]
    · next deptr dir1 w2 h2 =>
      unfold findEntryByInode at h2
      rw [h2] at hs
      simp only [Struck] at hs
      unfold strdup
      rcases tick_armed post w2 hs with hf3 | ⟨hf3, ha3⟩
      · simp [hf3, Struck]
      · simpa [hf3, Struck, closedir] using ha3

/-- Under a schedule that holds a failure, `printPathToChild` dies or ends before the
failing call is made. -/
theorem printPathToChild_struck (post : List Bool) (fs : FS) :
    ∀ (fuel parentfd childinode : Nat) (w : World), Armed post w.faults →
      Struck post (printPathToChild fs fuel parentfd childinode w) := by
  intro fuel
  induction fuel with
  | zero =>
    intro p c w h
    simpa [printPathToChild, Struck] using h
  | succ fuel ih =>
    intro p c w h
    rw [printPathToChild]
    split
    · simp [Struck]
    · next st w1 h1 =>
      obtain ⟨hf, hw1, -⟩ := fstat_some fs p _ st w1 h1
      have ha1 : Armed post w1.faults := by
        rcases tick_armed post
          { w with log := w.log ++ [Event.call p (slotGet w.fds p) c] } h with hf2 | ⟨-, ha⟩
        · rw [hf] at hf2
          exact absurd hf2 (by simp)
        · rw [hw1]
          exact ha
      split
      · split
        · simp [Struck]
        · next g w2 h2 =>
          obtain ⟨hf2, nd, -, -, hw2⟩ := openParent_some fs p w1 g w2 h2
          have ha2 : Armed post w2.faults := by
            rcases tick_armed post w1 ha1 with hf3 | ⟨-, ha⟩
            · rw [hf2] at hf3
              exact absurd hf3 (by simp)
            · rw [hw2]
              exact ha
          have hs := findNameByInode_struck post fs p c w2 ha2
          split
          · simp [Struck]
          · next w3 h3 =>
            rw [h3] at hs
            exact hs
          · simp [Struck]
          · next comp w3 h3 =>
            rw [h3] at hs
            simp only [Struck] at hs
            have hr := ih g st.st_ino w3 hs
            cases hrec : printPathToChild fs fuel g st.st_ino w3 with
            | died line w4 => simp [Struck]
            | fuelOut w4 =>
              rw [hrec] at hr
              exact hr
            | ok u w4 =>
              rw [hrec] at hr
              simpa [Struck, printf] using hr
      · simpa [Struck] using ha1

/-- The same for `printDirName`. -/
theorem printDirName_struck (post : List Bool) (fs : FS) (fuel fd : Nat) (w : World)
    (h : Armed post w.faults) : Struck post (printDirName fs fuel fd w) := by
  unfold printDirName
  split
  · simp [Struck]
  · next st w1 h1 =>
    obtain ⟨hf, hw1, -⟩ := fstat_some fs fd _ st w1 h1
    have ha1 : Armed post w1.faults := by
      rcases tick_armed post w h with hf2 | ⟨-, ha⟩
      · rw [hf] at hf2
        exact absurd hf2 (by simp)
      · rw [hw1]
        exact ha
    split
    · simp [Struck]
    · next g w2 h2 =>
      obtain ⟨hf2, nd, -, -, hw2⟩ := openParent_some fs fd w1 g w2 h2
      have ha2 : Armed post w2.faults := by
        rcases tick_armed post w1 ha1 with hf3 | ⟨-, ha⟩
        · rw [hf2] at hf3
          exact absurd hf3 (by simp)
        · rw [hw2]
          exact ha
      have hr := printPathToChild_struck post fs fuel g st.st_ino w2 ha2
      cases hrec : printPathToChild fs fuel g st.st_ino w2 with
      | died line w4 => simp [Struck]
      | fuelOut w4 =>
        rw [hrec] at hr
        exact hr
      | ok u w4 =>
        rw [hrec] at hr
        simpa [Struck, printf] using hr

/-- A listing without any repeated inode number is unique in the sense of
`UniqueInListing`. -/
theorem uniqueInListing_of_nodup (fs : FS)
    (h : ∀ nd ∈ fs, (nd.entries.map (fun e => e.d_ino)).Nodup) : UniqueInListing fs := by
  intro nd hnd
  exact (h nd hnd).sublist (List.Sublist.map _ (List.filter_sublist _))

/-! ## Descriptors open along a run -/

theorem within_nil (n : Nat) (live : List Nat) (h : live.length ≤ n) : Within n live [] := by
  intro p q hpq
  have : p = [] := by
    cases p with
    | nil => rfl
    | cons a t => simp at hpq
  subst this
  exact h

theorem track_cons (live : List Nat) (e : Event) (es : List Event) :
    track live (e :: es) = track (track live [e]) es := by
  cases e <;> rfl

theorem track_append (es : List Event) :
    ∀ (live : List Nat) (es2 : List Event),
      track live (es ++ es2) = track (track live es) es2 := by
  induction es with
  | nil => intro live es2; rfl
  | cons e t ih =>
    intro live es2
    rw [List.cons_append, track_cons, ih, ← track_cons]

theorem within_cons (n : Nat) (live : List Nat) (e : Event) (es : List Event)
    (h : live.length ≤ n) (h2 : Within n (track live [e]) es) : Within n live (e :: es) := by
  intro p q hpq
  cases p with
  | nil => exact h
  | cons a t =>
    simp only [List.cons_append, List.cons.injEq] at hpq
    obtain ⟨rfl, hpq⟩ := hpq
    rw [track_cons]
    exact h2 t q hpq

theorem within_append_wrote (n : Nat) (live : List Nat) (es : List Event) (s : String)
    (h : Within n live es) : Within n live (es ++ [Event.wrote s]) := by
  intro p q hpq
  rcases List.append_eq_append_iff.1 hpq with ⟨a, h1, h2⟩ | ⟨c, h1, -⟩
  · have hes : track live es = track live (es ++ a) := by
      rw [track_append]
      cases a with
      | nil => rfl
      | cons x t =>
        have h3 := congrArg List.length h2
        simp only [List.length_singleton, List.length_append, List.length_cons, List.length_nil] at h3
        have ht : t = [] := List.eq_nil_of_length_eq_zero (by omega)
        subst ht
        simp only [List.cons_append, List.nil_append, List.cons.injEq] at h2
        rw [← h2.1]
        rfl
    rw [h1, ← hes]
    exact h es [] (by simp)
  · exact h p c h1

theorem erase_after_open (g p : Nat) (L : List Nat) : (g :: p :: L).erase p = g :: L := by
  by_cases h : g = p
  · subst h
    simp
  · rw [List.erase_cons_tail (by simpa using h)]
    simp

/-- While `printPathToChild` runs on descriptor `parentfd`, with `L` the other open
descriptors, at most two more than `L` are open at any point. -/
theorem printPathToChild_within (fs : FS) :
    ∀ (fuel parentfd childinode : Nat) (w : World) (L : List Nat),
      ∃ evs, (printPathToChild fs fuel parentfd childinode w).world.log = w.log ++ evs ∧
        Within (L.length + 2) (parentfd :: L) evs := by
  intro fuel
  induction fuel with
  | zero =>
    intro p c w L
    exact ⟨[], by simp [printPathToChild, Res.world], within_nil _ _ (by simp)⟩
  | succ fuel ih =>
    intro p c w L
    have hcall : Within (L.length + 2) (p :: L) [Event.call p (slotGet w.fds p) c] :=
      within_cons _ _ _ _ (by simp) (within_nil _ _ (by simp [track]))
    rw [printPathToChild]
    split
    · next w1 h =>
      have := fstat_snd fs p { w with log := w.log ++ [Event.call p (slotGet w.fds p) c] }
      rw [h] at this
      simp only at this
      exact ⟨[Event.call p (slotGet w.fds p) c], by simp only [Res.world, this, tick_log], hcall⟩
    · next st w1 h =>
      obtain ⟨-, hw1, -⟩ := fstat_some fs p _ st w1 h
      have hl1 : w1.log = w.log ++ [Event.call p (slotGet w.fds p) c] := by rw [hw1]; rfl
      split
      · split
        · next w2 h2 =>
          have := openParent_none fs p w1 w2 h2
          exact ⟨[Event.call p (slotGet w.fds p) c],
            by simp only [Res.world, this, tick_log, hl1], hcall⟩
        · next g w2 h2 =>
          obtain ⟨-, nd, -, -, hw2⟩ := openParent_some fs p w1 g w2 h2
          have hl2 : w2.log = w.log ++ [Event.call p (slotGet w.fds p) c, Event.opened g] := by
            rw [hw2]
            simp [hl1]
          rcases findNameByInode_cases fs p c w2 with
            ⟨line, w3, h3, -, -, e3⟩ | ⟨comp, rest, w3, h3, -, -, e3, -⟩
          · rw [h3]
            refine ⟨[Event.call p (slotGet w.fds p) c, Event.opened g],
              by simp only [Res.world, e3, hl2], ?_⟩
            exact within_cons _ _ _ _ (by simp)
              (within_cons _ _ _ _ (by simp [track]) (within_nil _ _ (by simp [track])))
          · rw [h3]
            simp only
            obtain ⟨evs, hlog, hw⟩ := ih g st.st_ino (closedir ⟨p, rest⟩ w3) L
            have hl3 : (closedir ⟨p, rest⟩ w3).log =
                w.log ++ [Event.call p (slotGet w.fds p) c, Event.opened g, Event.closed p] := by
              simp [closedir, e3, hl2]
            have hall : Within (L.length + 2) (p :: L)
                ([Event.call p (slotGet w.fds p) c, Event.opened g, Event.closed p] ++ evs) := by
              refine within_cons _ _ _ _ (by simp)
                (within_cons _ _ _ _ (by simp [track])
                  (within_cons _ _ _ _ (by simp [track]) ?_))
              simp only [track]
              rw [erase_after_open]
              exact hw
            cases hrec : printPathToChild fs fuel g st.st_ino (closedir ⟨p, rest⟩ w3) with
            | died line w4 =>
              rw [hrec] at hlog
              simp only [Res.world] at hlog ⊢
              exact ⟨[Event.call p (slotGet w.fds p) c, Event.opened g, Event.closed p] ++ evs,
                by rw [hlog, hl3, List.append_assoc], hall⟩
            | fuelOut w4 =>
              rw [hrec] at hlog
              simp only [Res.world] at hlog ⊢
              exact ⟨[Event.call p (slotGet w.fds p) c, Event.opened g, Event.closed p] ++ evs,
                by rw [hlog, hl3, List.append_assoc], hall⟩
            | ok u w4 =>
              rw [hrec] at hlog
              simp only [Res.world] at hlog ⊢
              refine ⟨([Event.call p (slotGet w.fds p) c, Event.opened g, Event.closed p] ++ evs)
                ++ [Event.wrote ("/" ++ comp)], ?_, within_append_wrote _ _ _ ("/" ++ comp) hall⟩
              simp only [printf, hlog, hl3, List.append_assoc]
      · exact ⟨[Event.call p (slotGet w.fds p) c], by simp only [Res.world, hl1], hcall⟩

/-! ## Facts about the descriptor table -/

theorem slotGet_alloc_new (d : Nat) :
    ∀ (t : List (Option Nat)), slotGet (slotAlloc d t).1 (slotAlloc d t).2 = some d := by
  intro t
  induction t with
  | nil => rfl
  | cons a t ih =>
    cases a with
    | none => rfl
    | some x => simpa [slotAlloc, slotGet] using ih

theorem slotGet_alloc_old (d : Nat) :
    ∀ (t : List (Option Nat)) (fd x : Nat), slotGet t fd = some x →
      slotGet (slotAlloc d t).1 fd = some x ∧ (slotAlloc d t).2 ≠ fd := by
  intro t
  induction t with
  | nil => intro fd x h; simp [slotGet] at h
  | cons a t ih =>
    intro fd x h
    cases a with
    | none =>
      cases fd with
      | zero => simp [slotGet] at h
      | succ fd => simpa [slotAlloc, slotGet] using h
    | some y =>
      cases fd with
      | zero => simpa [slotAlloc, slotGet] using h
      | succ fd =>
        have := ih fd x (by simpa [slotGet] using h)
        simpa [slotAlloc, slotGet] using this

theorem slotGet_free_ne :
    ∀ (t : List (Option Nat)) (fd fd2 : Nat), fd ≠ fd2 →
      slotGet (slotFree t fd) fd2 = slotGet t fd2 := by
  intro t
  induction t with
  | nil => intro fd fd2 _; cases fd <;> rfl
  | cons a t ih =>
    intro fd fd2 h
    cases fd with
    | zero =>
      cases fd2 with
      | zero => exact absurd rfl h
      | succ fd2 => rfl
    | succ fd =>
      cases fd2 with
      | zero => rfl
      | succ fd2 =>
        simp only [slotFree, slotGet]
        exact ih fd fd2 (by omega)

theorem slotCount_alloc (d : Nat) :
    ∀ (t : List (Option Nat)), slotCount (slotAlloc d t).1 = slotCount t + 1 := by
  intro t
  induction t with
  | nil => rfl
  | cons a t ih =>
    cases a with
    | none => rfl
    | some x => simp [slotAlloc, slotCount, ih]

theorem slotCount_free :
    ∀ (t : List (Option Nat)) (fd x : Nat), slotGet t fd = some x →
      slotCount (slotFree t fd) + 1 = slotCount t := by
  intro t
  induction t with
  | nil => intro fd x h; simp [slotGet] at h
  | cons a t ih =>
    intro fd x h
    cases fd with
    | zero =>
      simp only [slotGet] at h
      subst h
      rfl
    | succ fd =>
      have := ih fd x (by simpa [slotGet] using h)
      cases a with
      | none => simpa [slotFree, slotCount] using this
      | some y => simp only [slotFree, slotCount]; omega

/-! ## One level of `printPathToChild` -/

theorem openParent_noFault (fs : FS) (fd : Nat) (w : World) (h : w.faults = []) (nd : Node)
    (hn : nodeOf fs w fd = some nd) :
    openParent fs fd w =
      (some (slotAlloc nd.parent w.fds).2,
        { w with
          fds := (slotAlloc nd.parent w.fds).1
          log := w.log ++ [Event.opened (slotAlloc nd.parent w.fds).2] }) := by
  simp [openParent, tick_of_noFault w h, hn]

/-- The base case: the inode number behind the descriptor is the child inode number. -/
theorem printPathToChild_base (fs : FS) (fuel parentfd childinode : Nat) (w w1 : World)
    (st : Stat)
    (h1 : fstat fs parentfd
      { w with log := w.log ++ [Event.call parentfd (slotGet w.fds parentfd) childinode] }
        = (some st, w1))
    (heq : st.st_ino = childinode) :
    printPathToChild fs (fuel + 1) parentfd childinode w = .ok () w1 := by
  rw [printPathToChild, h1]
  simp [heq]

/-- The level dies when `fstat` fails. -/
theorem printPathToChild_fstat_fails (fs : FS) (fuel parentfd childinode : Nat)
    (w w1 : World)
    (h1 : fstat fs parentfd
      { w with log := w.log ++ [Event.call parentfd (slotGet w.fds parentfd) childinode] }
        = (none, w1)) :
    printPathToChild fs (fuel + 1) parentfd childinode w = .died 150 w1 := by
  rw [printPathToChild, h1]

/-- The level dies where `findNameByInode` dies. -/
theorem printPathToChild_name_fails (fs : FS) (fuel parentfd childinode : Nat)
    (w w1 w2 w3 : World) (st : Stat) (gparentfd line : Nat)
    (h1 : fstat fs parentfd
      { w with log := w.log ++ [Event.call parentfd (slotGet w.fds parentfd) childinode] }
        = (some st, w1))
    (hne : st.st_ino ≠ childinode)
    (h2 : openParent fs parentfd w1 = (some gparentfd, w2))
    (h3 : findNameByInode fs parentfd childinode w2 = .died line w3) :
    printPathToChild fs (fuel + 1) parentfd childinode w = .died line w3 := by
  rw [printPathToChild, h1]
  simp only [hne, ne_eq, not_false_eq_true, if_true]
  rw [h2]
  simp only
  rw [h3]

/-- The recursive case, when every call of the level succeeds. -/
theorem printPathToChild_step (fs : FS) (fuel parentfd childinode : Nat) (w w1 w2 w3 : World)
    (st : Stat) (gparentfd : Nat) (comp : String)
    (h1 : fstat fs parentfd
      { w with log := w.log ++ [Event.call parentfd (slotGet w.fds parentfd) childinode] }
        = (some st, w1))
    (hne : st.st_ino ≠ childinode)
    (h2 : openParent fs parentfd w1 = (some gparentfd, w2))
    (h3 : findNameByInode fs parentfd childinode w2 = .ok (some comp) w3) :
    printPathToChild fs (fuel + 1) parentfd childinode w =
      match printPathToChild fs fuel gparentfd st.st_ino w3 with
      | .died line w4 => .died line w4
      | .fuelOut w4 => .fuelOut w4
      | .ok _ w4 => .ok () (printf ("/" ++ comp) w4) := by
  rw [printPathToChild, h1]
  simp only [hne, ne_eq, not_false_eq_true, if_true]
  rw [h2]
  simp only
  rw [h3]

/-! ## The walk along a well-formed chain -/

theorem atDepth_node (fs : FS) (n d : Nat) (h : atDepth fs n d = true) :
    ∃ nd, fs[d]? = some nd := by
  cases n with
  | zero =>
    unfold atDepth at h
    cases hd : fs[d]? with
    | none => simp [hd] at h
    | some nd => exact ⟨nd, rfl⟩
  | succ n =>
    unfold atDepth at h
    cases hd : fs[d]? with
    | none => simp [hd] at h
    | some nd => exact ⟨nd, rfl⟩

theorem uniqueIno_index (fs : FS) (hU : UniqueIno fs) (i j : Nat) (a b : Node)
    (hi : fs[i]? = some a) (hj : fs[j]? = some b) (hab : a.st_ino = b.st_ino) : i = j := by
  have key := List.nodup_iff_getElem?_ne_getElem?.1 hU
  have hmi : (fs.map (fun nd => nd.st_ino))[i]? = some a.st_ino := by
    rw [List.getElem?_map, hi]; rfl
  have hmj : (fs.map (fun nd => nd.st_ino))[j]? = some a.st_ino := by
    rw [List.getElem?_map, hj, hab]; rfl
  have hli : i < (fs.map (fun nd => nd.st_ino)).length :=
    (List.getElem?_eq_some.1 hmi).1
  have hlj : j < (fs.map (fun nd => nd.st_ino)).length :=
    (List.getElem?_eq_some.1 hmj).1
  rcases Nat.lt_trichotomy i j with h | h | h
  · exact absurd (hmi.trans hmj.symm) (key i j h hlj)
  · exact h
  · exact absurd (hmj.trans hmi.symm) (key j i h hli)

theorem callsOf_append (es : List Event) :
    ∀ (es2 : List Event), callsOf (es ++ es2) = callsOf es ++ callsOf es2 := by
  induction es with
  | nil => intro es2; rfl
  | cons e t ih =>
    intro es2
    cases e <;> simp [callsOf, ih]

theorem renderPath_snoc (cs : List String) (c : String) :
    renderPath (cs ++ [c]) = renderPath cs ++ ("/" ++ c) := by
  simp [renderPath, List.foldl_append, String.append_assoc]

/-- In a listing that holds the entry of a child once, the scan finds the child's name. -/
theorem find_listed (l : List Dirent) (ino : Nat) (name : String)
    (hmem : (⟨ino, name⟩ : Dirent) ∈ l)
    (honly : ∀ e ∈ l, e.d_ino = ino → e.d_name = name) :
    ∃ e, l.find? (fun e => decide (e.d_ino = ino)) = some e ∧ e.d_name = name := by
  cases hf : l.find? (fun e => decide (e.d_ino = ino)) with
  | none =>
    have := List.find?_eq_none.1 hf ⟨ino, name⟩ hmem
    simp at this
  | some e =>
    have h1 := List.find?_some hf
    have h2 := List.mem_of_find?_eq_some hf
    exact ⟨e, rfl, honly e h2 (by simpa using h1)⟩

/-- The walk from a child at depth `n`, started on a descriptor of the child's parent,
in a well-formed tree and without faults: it returns with more than `n` units of fuel and
not with `n`, it appends the path of the child to the output, it leaves as many descriptors
open as it found, and its invocations are the steps of the climb to the root. -/
theorem printPathToChild_chain (fs : FS) (hU : UniqueIno fs) (hL : Listed fs) :
    ∀ (n C : Nat) (nC : Node) (p : Nat) (w : World),
      atDepth fs n C = true → fs[C]? = some nC → slotGet w.fds p = some nC.parent →
      w.faults = [] →
      ∃ w1, (∀ fuel, n < fuel → printPathToChild fs fuel p nC.st_ino w = .ok () w1) ∧
        w1.out = w.out ++ renderPath (components fs n C) ∧
        w1.faults = [] ∧ slotCount w1.fds = slotCount w.fds ∧
        callsOf w1.log = callsOf w.log ++ climb fs (n + 1) C ∧
        ∃ w2, printPathToChild fs n p nC.st_ino w = .fuelOut w2 := by
  intro n
  induction n with
  | zero =>
    intro C nC p w hd hC hp hf
    have hpar : nC.parent = C := by
      unfold atDepth at hd
      simpa [hC] using hd
    have hnode : nodeOf fs
        { w with log := w.log ++ [Event.call p (slotGet w.fds p) nC.st_ino] } p = some nC := by
      simp [nodeOf, hp, hpar, hC]
    have h1 := fstat_noFault fs p
      { w with log := w.log ++ [Event.call p (slotGet w.fds p) nC.st_ino] } hf nC hnode
    refine ⟨{ w with log := w.log ++ [Event.call p (slotGet w.fds p) nC.st_ino] },
      ?_, ?_, hf, rfl, ?_, ⟨w, by simp [printPathToChild]⟩⟩
    · intro fuel hfu
      obtain ⟨k, rfl⟩ : ∃ j, fuel = j + 1 := ⟨fuel - 1, by omega⟩
      exact printPathToChild_base fs k p nC.st_ino w _ _ h1 rfl
    · simp [components, renderPath]
    · simp [callsOf_append, callsOf, climb, hC, hp]
  | succ n ih =>
    intro C nC p w hd hC hp hf
    have hd2 : nC.parent ≠ C ∧ atDepth fs n nC.parent = true := by
      rw [atDepth] at hd
      simpa [hC] using hd
    obtain ⟨hne, hdP⟩ := hd2
    obtain ⟨nP, hP⟩ := atDepth_node fs n nC.parent hdP
    obtain ⟨np, hnp, hmem, honly⟩ := hL C nC hC hne
    have hnpP : np = nP := by
      rw [hP] at hnp
      exact (Option.some.inj hnp).symm
    subst hnpP
    have hino : np.st_ino ≠ nC.st_ino := by
      intro heq
      exact hne (uniqueIno_index fs hU _ _ np nC hP hC heq)
    have hnode : nodeOf fs
        { w with log := w.log ++ [Event.call p (slotGet w.fds p) nC.st_ino] } p = some np := by
      simp [nodeOf, hp, hP]
    have h1 := fstat_noFault fs p
      { w with log := w.log ++ [Event.call p (slotGet w.fds p) nC.st_ino] } hf np hnode
    have h2 := openParent_noFault fs p
      { w with log := w.log ++ [Event.call p (slotGet w.fds p) nC.st_ino] } hf np hnode
    obtain ⟨hold, hgp⟩ := slotGet_alloc_old np.parent w.fds p nC.parent hp
    obtain ⟨e, hfind, hname⟩ := find_listed np.entries nC.st_ino nC.name hmem honly
    have h3 := findNameByInode_noFault fs p nC.st_ino
      { w with
        fds := (slotAlloc np.parent w.fds).1
        log := w.log ++ [Event.call p (slotGet w.fds p) nC.st_ino] ++
          [Event.opened (slotAlloc np.parent w.fds).2] } hf np
      (by simp [nodeOf, hold, hP])
    rw [hfind] at h3
    simp only at h3
    have hg : slotGet (slotFree (slotAlloc np.parent w.fds).1 p) (slotAlloc np.parent w.fds).2
        = some np.parent := by
      rw [slotGet_free_ne _ _ _ (Ne.symm hgp)]
      exact slotGet_alloc_new _ _
    obtain ⟨w4, hrec, hout, hf4, hcnt, hcalls, w5, hless⟩ :=
      ih nC.parent np (slotAlloc np.parent w.fds).2
        (closedir ⟨p, (np.entries.dropWhile (fun e => !decide (e.d_ino = nC.st_ino))).tail⟩
          { w with
            fds := (slotAlloc np.parent w.fds).1
            log := w.log ++ [Event.call p (slotGet w.fds p) nC.st_ino] ++
              [Event.opened (slotAlloc np.parent w.fds).2] })
        hdP hP hg hf
    have hstep := fun fuel => printPathToChild_step fs fuel p nC.st_ino w _ _ _ _ _ _
      h1 hino h2 h3
    refine ⟨printf ("/" ++ e.d_name) w4, ?_, ?_, hf4, ?_, ?_, ⟨w5, ?_⟩⟩
    · intro fuel hfu
      obtain ⟨k, rfl⟩ : ∃ j, fuel = j + 1 := ⟨fuel - 1, by omega⟩
      rw [hstep k]
      simp only
      rw [hrec k (by omega)]
    · simp only [printf, hout, closedir, components, hC, renderPath_snoc, hname,
        String.append_assoc]
    · simp only [printf, hcnt, closedir]
      have := slotCount_free _ p _ hold
      have := slotCount_alloc np.parent w.fds
      omega
    · simp only [printf, callsOf_append, hcalls, closedir, callsOf, climb, hC, hp, hP,
        List.append_nil, List.append_assoc, List.singleton_append, List.nil_append]
    · rw [hstep n]
      simp only
      rw [hless]

/-- Whatever fails, the walk from a child at depth `n` needs no more than `n + 1`
invocations: it never climbs past the directory that is its own parent. -/
theorem printPathToChild_bounded (fs : FS) :
    ∀ (n C : Nat) (nC : Node) (p : Nat) (w w9 : World),
      atDepth fs n C = true → fs[C]? = some nC → slotGet w.fds p = some nC.parent →
      printPathToChild fs (n + 1) p nC.st_ino w ≠ .fuelOut w9 := by
  intro n
  induction n with
  | zero =>
    intro C nC p w w9 hd hC hp
    have hpar : nC.parent = C := by
      unfold atDepth at hd
      simpa [hC] using hd
    rw [printPathToChild]
    split
    · simp
    · next st w1 h =>
      obtain ⟨-, -, nd, hnd, hst⟩ := fstat_some fs p _ st w1 h
      have : nd = nC := by
        simp only [nodeOf, hp, hpar, Option.some_bind, hC] at hnd
        exact (Option.some.inj hnd).symm
      subst this
      simp [hst]
  | succ n ih =>
    intro C nC p w w9 hd hC hp
    have hd2 : nC.parent ≠ C ∧ atDepth fs n nC.parent = true := by
      rw [atDepth] at hd
      simpa [hC] using hd
    obtain ⟨-, hdP⟩ := hd2
    obtain ⟨nP, hP⟩ := atDepth_node fs n nC.parent hdP
    rw [printPathToChild]
    split
    · simp
    · next st w1 h =>
      obtain ⟨-, hw1, nd, hnd, hst⟩ := fstat_some fs p _ st w1 h
      have hndP : nd = nP := by
        simp only [nodeOf, hp, Option.some_bind, hP] at hnd
        exact (Option.some.inj hnd).symm
      subst hndP
      have hfd1 : w1.fds = w.fds := by rw [hw1]; rfl
      split
      · split
        · simp
        · next g w2 h2 =>
          obtain ⟨-, nd2, hnd2, hg, hw2⟩ := openParent_some fs p w1 g w2 h2
          have hnd2P : nd2 = nd := by
            simp only [nodeOf, hfd1, hp, Option.some_bind, hP] at hnd2
            exact (Option.some.inj hnd2).symm
          subst hnd2P
          have hfd2 : w2.fds = (slotAlloc nd2.parent w.fds).1 := by rw [hw2, hfd1]
          obtain ⟨-, hgp⟩ := slotGet_alloc_old nd2.parent w.fds p nC.parent hp
          rw [hfd1] at hg
          rcases findNameByInode_cases fs p nC.st_ino w2 with
            ⟨line, w3, h3, -, -, -⟩ | ⟨comp, rest, w3, h3, -, e2, -, -⟩
          · rw [h3]
            simp
          · rw [h3]
            simp only
            have hslot : slotGet (closedir ⟨p, rest⟩ w3).fds g = some nd2.parent := by
              simp only [closedir, e2, hfd2]
              rw [slotGet_free_ne _ _ _ (by rw [hg]; exact Ne.symm hgp), hg]
              exact slotGet_alloc_new _ _
            have hrec := fun w8 => ih nC.parent nd2 g (closedir ⟨p, rest⟩ w3) w8 hdP hP hslot
            rw [hst]
            cases hr : printPathToChild fs (n + 1) g nd2.st_ino (closedir ⟨p, rest⟩ w3) with
            | died line w4 => simp
            | fuelOut w4 => exact absurd hr (hrec w4)
            | ok u w4 => simp
      · simp

/-- The climb of `n + 1` steps from a directory at depth `n` ends with the step from the
root to itself. -/
theorem climb_last (fs : FS) :
    ∀ (n D : Nat), atDepth fs n D = true →
      (climb fs (n + 1) D).length = n + 1 ∧
      ∃ R nR, fs[R]? = some nR ∧ nR.parent = R ∧
        (climb fs (n + 1) D).getLast? = some (some R, nR.st_ino) := by
  intro n
  induction n with
  | zero =>
    intro D hd
    obtain ⟨nD, hD⟩ := atDepth_node fs 0 D hd
    have hpar : nD.parent = D := by
      unfold atDepth at hd
      simpa [hD] using hd
    exact ⟨by simp [climb, hD], D, nD, hD, hpar, by simp [climb, hD, hpar]⟩
  | succ n ih =>
    intro D hd
    obtain ⟨nD, hD⟩ := atDepth_node fs (n + 1) D hd
    have hd2 : nD.parent ≠ D ∧ atDepth fs n nD.parent = true := by
      rw [atDepth] at hd
      simpa [hD] using hd
    obtain ⟨hlen, R, nR, hR, hpar, hlast⟩ := ih nD.parent hd2.2
    refine ⟨?_, R, nR, hR, hpar, ?_⟩
    · rw [climb]
      simp only [hD, List.length_cons, hlen]
    · rw [climb]
      simp only [hD]
      rw [List.getLast?_cons, hlast]
      rfl

/-- The whole run of `printDirName` on a descriptor of a directory at depth `n`, in a
well-formed tree and without faults. -/
theorem printDirName_chain (fs : FS) (hU : UniqueIno fs) (hL : Listed fs)
    (n D fd : Nat) (w : World) (hd : atDepth fs n D = true)
    (hfd : slotGet w.fds fd = some D) (hf : w.faults = []) :
    ∃ w1, (∀ fuel, n < fuel → printDirName fs fuel fd w = .ok () w1) ∧
      w1.out = w.out ++ renderPath (components fs n D) ++ "\n" ∧
      slotCount w1.fds = slotCount w.fds + 1 ∧
      callsOf w1.log = callsOf w.log ++ climb fs (n + 1) D ∧
      ∃ w2, printDirName fs n fd w = .fuelOut w2 := by
  obtain ⟨nD, hD⟩ := atDepth_node fs n D hd
  have hnode : nodeOf fs w fd = some nD := by simp [nodeOf, hfd, hD]
  have h1 := fstat_noFault fs fd w hf nD hnode
  have h2 := openParent_noFault fs fd w hf nD hnode
  obtain ⟨w1, hok, hout, -, hcnt, hcalls, w2, hless⟩ :=
    printPathToChild_chain fs hU hL n D nD (slotAlloc nD.parent w.fds).2
      { w with
        fds := (slotAlloc nD.parent w.fds).1
        log := w.log ++ [Event.opened (slotAlloc nD.parent w.fds).2] }
      hd hD (slotGet_alloc_new _ _) hf
  refine ⟨printf "\n" w1, ?_, ?_, ?_, ?_, ⟨w2, ?_⟩⟩
  · intro fuel hfu
    unfold printDirName
    rw [h1]
    simp only
    rw [h2]
    simp only
    rw [hok fuel hfu]
  · simp only [printf, hout]
  · simp only [printf, hcnt, slotCount_alloc]
  · simp only [printf, hcalls, callsOf_append, callsOf, List.append_nil]
  · unfold printDirName
    rw [h1]
    simp only
    rw [h2]
    simp only
    rw [hless]

/-- The tree `/a/b/c` lists every directory in its parent, once. -/
theorem abcTree_listed : Listed abcTree := by
  intro i ni hi hne
  rcases i with _ | _ | _ | _ | i
  · simp [abcTree] at hi
    subst hi
    simp at hne
  · simp [abcTree] at hi
    subst hi
    exact ⟨_, rfl, by decide, by decide⟩
  · simp [abcTree] at hi
    subst hi
    exact ⟨_, rfl, by decide, by decide⟩
  · simp [abcTree] at hi
    subst hi
    exact ⟨_, rfl, by decide, by decide⟩
  · simp [abcTree] at hi

/-! ## Two runs on the same tree -/

theorem sameTree_get :
    ∀ (fs1 fs2 : FS), SameTree fs1 fs2 → ∀ (d : Nat),
      (fs1[d]? = none ∧ fs2[d]? = none) ∨
      ∃ a b, fs1[d]? = some a ∧ fs2[d]? = some b ∧ a ∈ fs1 ∧
        a.st_ino = b.st_ino ∧ a.parent = b.parent ∧ a.entries.Perm b.entries := by
  intro fs1
  induction fs1 with
  | nil =>
    intro fs2 h d
    cases fs2 with
    | nil => exact Or.inl ⟨rfl, rfl⟩
    | cons b t2 => exact absurd h (by simp [SameTree])
  | cons a t1 ih =>
    intro fs2 h d
    cases fs2 with
    | nil => exact absurd h (by simp [SameTree])
    | cons b t2 =>
      simp only [SameTree] at h
      obtain ⟨⟨-, -, h3, h4, h5⟩, ht⟩ := h
      cases d with
      | zero => exact Or.inr ⟨a, b, by simp, by simp, by simp, h3, h4, h5⟩
      | succ d =>
        rcases ih t2 ht d with ⟨h1, h2⟩ | ⟨x, y, h1, h2, hm, h6⟩
        · exact Or.inl ⟨by simpa using h1, by simpa using h2⟩
        · exact Or.inr ⟨x, y, by simpa using h1, by simpa using h2,
            List.mem_cons_of_mem _ hm, h6⟩

/-- With unique inode numbers among the entries that do not bear the number `own`, the
first entry bearing a number other than `own` does not depend on the order of the
listing. -/
theorem find_perm (l1 l2 : List Dirent) (own inode : Nat) (hp : l1.Perm l2)
    (hn : ((l1.filter (fun e => e.d_ino != own)).map (fun e => e.d_ino)).Nodup)
    (hne : own ≠ inode) :
    l1.find? (fun e => decide (e.d_ino = inode)) =
      l2.find? (fun e => decide (e.d_ino = inode)) := by
  cases h1 : l1.find? (fun e => decide (e.d_ino = inode)) with
  | none =>
    symm
    rw [List.find?_eq_none] at h1 ⊢
    intro x hx
    exact h1 x (hp.mem_iff.2 hx)
  | some e =>
    have he1 := List.find?_some h1
    have he2 := List.mem_of_find?_eq_some h1
    cases h2 : l2.find? (fun e => decide (e.d_ino = inode)) with
    | none =>
      have := List.find?_eq_none.1 h2 e (hp.mem_iff.1 he2)
      exact absurd he1 this
    | some e2 =>
      have hf1 := List.find?_some h2
      have hf2 := hp.mem_iff.2 (List.mem_of_find?_eq_some h2)
      simp only [decide_eq_true_eq] at he1 hf1
      have m1 : e ∈ l1.filter (fun e => e.d_ino != own) := by
        rw [List.mem_filter]
        refine ⟨he2, ?_⟩
        rw [he1]
        simpa using Ne.symm hne
      have m2 : e2 ∈ l1.filter (fun e => e.d_ino != own) := by
        rw [List.mem_filter]
        refine ⟨hf2, ?_⟩
        rw [hf1]
        simpa using Ne.symm hne
      have : e.d_ino = e2.d_ino := by rw [he1, hf1]
      rw [List.inj_on_of_nodup_map hn m1 m2 this]

theorem fstat_noFault_none (fs : FS) (fd : Nat) (w : World) (h : w.faults = [])
    (hn : nodeOf fs w fd = none) : fstat fs fd w = (none, w) := by
  simp [fstat, tick_of_noFault w h, hn]

/-- Two walks over the same tree, each directory possibly yielding its entries in
another order, started on descriptors of the same directory in two states without
faults, end the same way and write the same text. -/
theorem printPathToChild_sim (fs1 fs2 : FS) (hS : SameTree fs1 fs2)
    (hN : UniqueInListing fs1) :
    ∀ (fuel p1 p2 c : Nat) (w1 w2 : World),
      slotGet w1.fds p1 = slotGet w2.fds p2 → w1.faults = [] → w2.faults = [] →
      ∃ s, (printPathToChild fs1 fuel p1 c w1).world.out = w1.out ++ s ∧
        (printPathToChild fs2 fuel p2 c w2).world.out = w2.out ++ s ∧
        (printPathToChild fs1 fuel p1 c w1).status =
          (printPathToChild fs2 fuel p2 c w2).status := by
  intro fuel
  induction fuel with
  | zero =>
    intro p1 p2 c w1 w2 _ _ _
    exact ⟨"", by simp [printPathToChild, Res.world], by simp [printPathToChild, Res.world],
      by simp [printPathToChild, Res.status]⟩
  | succ fuel ih =>
    intro p1 p2 c w1 w2 hp hf1 hf2
    cases hd : slotGet w1.fds p1 with
    | none =>
      have hd2 : slotGet w2.fds p2 = none := by rw [← hp, hd]
      have e1 := fstat_noFault_none fs1 p1
        { w1 with log := w1.log ++ [Event.call p1 (slotGet w1.fds p1) c] } hf1
        (by simp [nodeOf, hd])
      have e2 := fstat_noFault_none fs2 p2
        { w2 with log := w2.log ++ [Event.call p2 (slotGet w2.fds p2) c] } hf2
        (by simp [nodeOf, hd2])
      rw [printPathToChild_fstat_fails fs1 fuel p1 c w1 _ e1,
        printPathToChild_fstat_fails fs2 fuel p2 c w2 _ e2]
      exact ⟨"", by simp [Res.world], by simp [Res.world], by simp [Res.status]⟩
    | some d =>
      have hd2 : slotGet w2.fds p2 = some d := by rw [← hp, hd]
      rcases sameTree_get fs1 fs2 hS d with ⟨n1, n2⟩ | ⟨a, b, n1, n2, hmem, hino, hpar, hperm⟩
      · have e1 := fstat_noFault_none fs1 p1
          { w1 with log := w1.log ++ [Event.call p1 (slotGet w1.fds p1) c] } hf1
          (by simp [nodeOf, hd, n1])
        have e2 := fstat_noFault_none fs2 p2
          { w2 with log := w2.log ++ [Event.call p2 (slotGet w2.fds p2) c] } hf2
          (by simp [nodeOf, hd2, n2])
        rw [printPathToChild_fstat_fails fs1 fuel p1 c w1 _ e1,
          printPathToChild_fstat_fails fs2 fuel p2 c w2 _ e2]
        exact ⟨"", by simp [Res.world], by simp [Res.world], by simp [Res.status]⟩
      · have hn1 : nodeOf fs1
            { w1 with log := w1.log ++ [Event.call p1 (slotGet w1.fds p1) c] } p1 = some a := by
          simp [nodeOf, hd, n1]
        have hn2 : nodeOf fs2
            { w2 with log := w2.log ++ [Event.call p2 (slotGet w2.fds p2) c] } p2 = some b := by
          simp [nodeOf, hd2, n2]
        have e1 := fstat_noFault fs1 p1
          { w1 with log := w1.log ++ [Event.call p1 (slotGet w1.fds p1) c] } hf1 a hn1
        have e2 := fstat_noFault fs2 p2
          { w2 with log := w2.log ++ [Event.call p2 (slotGet w2.fds p2) c] } hf2 b hn2
        by_cases hc : a.st_ino = c
        · have hc2 : b.st_ino = c := by rw [← hino, hc]
          rw [printPathToChild_base fs1 fuel p1 c w1 _ _ e1 hc,
            printPathToChild_base fs2 fuel p2 c w2 _ _ e2 hc2]
          exact ⟨"", by simp [Res.world], by simp [Res.world], by simp [Res.status]⟩
        · have hc2 : b.st_ino ≠ c := by rw [← hino]; exact hc
          have o1 := openParent_noFault fs1 p1
            { w1 with log := w1.log ++ [Event.call p1 (slotGet w1.fds p1) c] } hf1 a hn1
          have o2 := openParent_noFault fs2 p2
            { w2 with log := w2.log ++ [Event.call p2 (slotGet w2.fds p2) c] } hf2 b hn2
          obtain ⟨hold1, hg1⟩ := slotGet_alloc_old a.parent w1.fds p1 d hd
          obtain ⟨hold2, hg2⟩ := slotGet_alloc_old b.parent w2.fds p2 d hd2
          have f1 := findNameByInode_noFault fs1 p1 c
            { w1 with
              fds := (slotAlloc a.parent w1.fds).1
              log := w1.log ++ [Event.call p1 (slotGet w1.fds p1) c] ++
                [Event.opened (slotAlloc a.parent w1.fds).2] } hf1 a
            (by simp [nodeOf, hold1, n1])
          have f2 := findNameByInode_noFault fs2 p2 c
            { w2 with
              fds := (slotAlloc b.parent w2.fds).1
              log := w2.log ++ [Event.call p2 (slotGet w2.fds p2) c] ++
                [Event.opened (slotAlloc b.parent w2.fds).2] } hf2 b
            (by simp [nodeOf, hold2, n2])
          rw [← find_perm a.entries b.entries a.st_ino c hperm (hN a hmem) hc] at f2
          cases hfind : a.entries.find? (fun e => decide (e.d_ino = c)) with
          | none =>
            rw [hfind] at f1 f2
            simp only at f1 f2
            rw [printPathToChild_name_fails fs1 fuel p1 c w1 _ _ _ _ _ _ e1 hc o1 f1,
              printPathToChild_name_fails fs2 fuel p2 c w2 _ _ _ _ _ _ e2 hc2 o2 f2]
            exact ⟨"", by simp [Res.world], by simp [Res.world], by simp [Res.status]⟩
          | some e =>
            rw [hfind] at f1 f2
            simp only at f1 f2
            have s1 := printPathToChild_step fs1 fuel p1 c w1 _ _ _ _ _ _ e1 hc o1 f1
            have s2 := printPathToChild_step fs2 fuel p2 c w2 _ _ _ _ _ _ e2 hc2 o2 f2
            have hslot1 : slotGet (slotFree (slotAlloc a.parent w1.fds).1 p1)
                (slotAlloc a.parent w1.fds).2 = some a.parent := by
              rw [slotGet_free_ne _ _ _ (Ne.symm hg1)]
              exact slotGet_alloc_new _ _
            have hslot2 : slotGet (slotFree (slotAlloc b.parent w2.fds).1 p2)
                (slotAlloc b.parent w2.fds).2 = some a.parent := by
              rw [slotGet_free_ne _ _ _ (Ne.symm hg2), hpar]
              exact slotGet_alloc_new _ _
            obtain ⟨s, r1, r2, r3⟩ := ih (slotAlloc a.parent w1.fds).2
              (slotAlloc b.parent w2.fds).2 a.st_ino
              (closedir ⟨p1, (a.entries.dropWhile (fun e => !decide (e.d_ino = c))).tail⟩
                { w1 with
                  fds := (slotAlloc a.parent w1.fds).1
                  log := w1.log ++ [Event.call p1 (slotGet w1.fds p1) c] ++
                    [Event.opened (slotAlloc a.parent w1.fds).2] })
              (closedir ⟨p2, (b.entries.dropWhile (fun e => !decide (e.d_ino = c))).tail⟩
                { w2 with
                  fds := (slotAlloc b.parent w2.fds).1
                  log := w2.log ++ [Event.call p2 (slotGet w2.fds p2) c] ++
                    [Event.opened (slotAlloc b.parent w2.fds).2] })
              (hslot1.trans hslot2.symm) hf1 hf2
            simp only at s1 s2
            rw [← hino] at s2
            rw [s1, s2]
            revert r1 r2 r3
            generalize printPathToChild fs1 fuel _ a.st_ino _ = R1
            generalize printPathToChild fs2 fuel _ a.st_ino _ = R2
            intro r1 r2 r3
            simp only [closedir] at r1 r2
            cases R1 with
            | ok u1 x1 =>
              cases R2 with
              | ok u2 x2 =>
                simp only [Res.world] at r1 r2
                exact ⟨s ++ ("/" ++ e.d_name),
                  by simp only [Res.world, printf, r1, String.append_assoc],
                  by simp only [Res.world, printf, r2, String.append_assoc], rfl⟩
              | died l2 x2 => simp [Res.status] at r3
              | fuelOut x2 => simp [Res.status] at r3
            | died l1 x1 =>
              cases R2 with
              | ok u2 x2 => simp [Res.status] at r3
              | died l2 x2 => exact ⟨s, r1, r2, r3⟩
              | fuelOut x2 => simp [Res.status] at r3
            | fuelOut x1 =>
              cases R2 with
              | ok u2 x2 => simp [Res.status] at r3
              | died l2 x2 => simp [Res.status] at r3
              | fuelOut x2 => exact ⟨s, r1, r2, rfl⟩

/-! ## Claims about the directory scan -/

/-- C5: when no call fails and the target inode number occurs in the listing of the
directory behind `fd`, the listing splits as `pre ++ e :: post` where `e` is the first
entry bearing the target (no entry of `pre` bears it); `findEntryByInode` returns `e`
and leaves exactly `post` unread in the stream, and `findNameByInode` returns a copy
of the name of `e` after closing the descriptor. -/
theorem findNameByInode_first_match (fs : FS) (fd inode : Nat) (w : World) (nd : Node)
    (hfault : w.faults = []) (hn : nodeOf fs w fd = some nd)
    (hocc : ∃ x ∈ nd.entries, x.d_ino = inode) :
    ∃ pre e post, nd.entries = pre ++ e :: post ∧ e.d_ino = inode ∧
      (∀ x ∈ pre, x.d_ino ≠ inode) ∧
      findEntryByInode ⟨fd, nd.entries⟩ inode w = .ok (some e, ⟨fd, post⟩) w ∧
      findNameByInode fs fd inode w = .ok (some e.d_name) (closedir ⟨fd, post⟩ w) := by
  obtain ⟨pre, e, post, h1, h2, h3, h4, h5⟩ := split_at_first inode nd.entries hocc
  refine ⟨pre, e, post, h1, h2, h3, ?_, ?_⟩
  · rw [findEntryByInode_noFault inode fd w hfault, h4, h5]
  · rw [findNameByInode_noFault fs fd inode w hfault nd hn, h4, h5]

/-- Witness for C5: scanning directory `a` of the tree `/a/b/c` for inode 12 passes
`.`, `..` and `x` and returns `b`. -/
theorem findNameByInode_first_match_witness :
    ∃ pre e post, [(⟨11, "."⟩ : Dirent), ⟨2, ".."⟩, ⟨40, "x"⟩, ⟨12, "b"⟩] = pre ++ e :: post ∧
      e.d_ino = 12 ∧ (∀ x ∈ pre, x.d_ino ≠ 12) ∧
      findEntryByInode ⟨0, [⟨11, "."⟩, ⟨2, ".."⟩, ⟨40, "x"⟩, ⟨12, "b"⟩]⟩ 12 (handleOn 1) =
        .ok (some e, ⟨0, post⟩) (handleOn 1) ∧
      findNameByInode abcTree 0 12 (handleOn 1) =
        .ok (some e.d_name) (closedir ⟨0, post⟩ (handleOn 1)) :=
  findNameByInode_first_match abcTree 0 12 (handleOn 1)
    ⟨"a", 0, 11, 0, [⟨11, "."⟩, ⟨2, ".."⟩, ⟨40, "x"⟩, ⟨12, "b"⟩]⟩ rfl rfl
    ⟨⟨12, "b"⟩, by decide, rfl⟩

/-- C6 (what the code does): `findNameByInode` never hands a `NULL` name back to its
caller.  Scanning directory `c` of the tree `/a/b/c` for the absent inode 99 dies
inside `findNameByInode`, at the `die_if(!deptr)` of line 131, and whatever the tree,
the descriptor, the inode and the state, the outcome is never `ok none`. -/
theorem findNameByInode_never_null :
    findNameByInode abcTree 0 99 (handleOn 3) = .died 131 (handleOn 3) ∧
    ∀ (fs : FS) (fd inode : Nat) (w w1 : World),
      findNameByInode fs fd inode w ≠ .ok none w1 := by
  refine ⟨by decide, ?_⟩
  intro fs fd inode w w1
  unfold findNameByInode
  split
  · simp
  · split
    · simp
    · simp
    · simp
    · split <;> simp

/-! ## Claims about output and failure -/

/-- C4: all-or-nothing output.  Whatever the tree, the descriptor, the state and the fault
schedule: when `printDirName` ends in `die` (at any `die_if`, at any depth), the output
is what it was before the call, so nothing has been printed; and when it returns, every
checked call of the run succeeded (the part of the fault schedule the run used up holds
no failure).  An invocation of `printPathToChild`, at any level, on a directory other
than the child whose listing has no entry bearing the child inode number dies, having
printed nothing.  Every failing call is fatal: when the fault schedule makes some call
fail (`true` after a run `pre` of successes), the run dies with nothing printed, unless
it ended before it made that call (the failure is then still in the schedule it left).
In particular, when `fstat` on the initial handle fails the run dies at line 180, and
when the ascension from the initial handle fails (`openParent` returns a negative
descriptor) it dies at line 183, both with nothing printed. -/
theorem printDirName_all_or_nothing (fs : FS) (fuel fd : Nat) (w : World) :
    (∀ line w1, printDirName fs fuel fd w = .died line w1 → w1.out = w.out) ∧
    (∀ w1, printDirName fs fuel fd w = .fuelOut w1 → w1.out = w.out) ∧
    (∀ u w1, printDirName fs fuel fd w = .ok u w1 →
      ∃ used, w.faults = used ++ w1.faults ∧ ∀ b ∈ used, b = false) ∧
    (∀ (fuel2 parentfd childinode : Nat) (w0 : World) (nd : Node),
      nodeOf fs w0 parentfd = some nd → nd.st_ino ≠ childinode →
      (∀ e ∈ nd.entries, e.d_ino ≠ childinode) →
      ∃ line w9, printPathToChild fs (fuel2 + 1) parentfd childinode w0 = .died line w9 ∧
        w9.out = w0.out) ∧
    (∀ pre post, w.faults = pre ++ true :: post → (∀ b ∈ pre, b = false) →
      (∃ line w1, printDirName fs fuel fd w = .died line w1 ∧ w1.out = w.out) ∨
      (∃ pre2, (printDirName fs fuel fd w).world.faults = pre2 ++ true :: post ∧
        ∀ b ∈ pre2, b = false)) ∧
    (∀ w1, fstat fs fd w = (none, w1) →
      printDirName fs fuel fd w = .died 180 w1 ∧ w1.out = w.out) ∧
    (∀ st w1 w2, fstat fs fd w = (some st, w1) → openParent fs fd w1 = (none, w2) →
      printDirName fs fuel fd w = .died 183 w2 ∧ w2.out = w.out) := by
  have hq := printDirName_quiet fs fuel fd w
  refine ⟨?_, ?_, ?_, ?_, ?_, ?_, ?_⟩
  pick_goal 4
  · intro fuel2 p c w0 nd hnode hne hno
    have hq2 := printPathToChild_quiet fs (fuel2 + 1) p c w0
    suffices hdie : ∃ line w9, printPathToChild fs (fuel2 + 1) p c w0 = .died line w9 by
      obtain ⟨line, w9, hd⟩ := hdie
      rw [hd] at hq2
      exact ⟨line, w9, hd, hq2⟩
    rw [printPathToChild]
    split
    · exact ⟨150, _, rfl⟩
    · next st w1 h =>
      obtain ⟨-, hw1, nd1, hnd1, hst⟩ := fstat_some fs p _ st w1 h
      have hnd : nd1 = nd := by
        have : nodeOf fs { w0 with log := w0.log ++ [Event.call p (slotGet w0.fds p) c] } p
            = nodeOf fs w0 p := rfl
        rw [this, hnode] at hnd1
        exact (Option.some.inj hnd1).symm
      subst hnd
      have hne2 : st.st_ino ≠ c := by rw [hst]; exact hne
      simp only [hne2, ne_eq, not_false_eq_true, if_true]
      split
      · exact ⟨158, _, rfl⟩
      · next g w2 h2 =>
        obtain ⟨-, nd2, -, -, hw2⟩ := openParent_some fs p w1 g w2 h2
        rcases findNameByInode_cases fs p c w2 with
          ⟨line, w3, h3, -, -, -⟩ | ⟨comp, rest, w3, h3, -, -, -, -⟩
        · rw [h3]
          exact ⟨line, w3, rfl⟩
        · obtain ⟨nd3, e, hnd3, hmem, hino, -⟩ := findNameByInode_found fs p c w2 _ comp h3
          have hfd1 : w1.fds = w0.fds := by rw [hw1]; rfl
          have hfd2 : w2.fds = (slotAlloc nd2.parent w0.fds).1 := by rw [hw2, hfd1]
          cases hslot : slotGet w0.fds p with
          | none => simp [nodeOf, hslot] at hnode
          | some d =>
            have hkeep := (slotGet_alloc_old nd2.parent w0.fds p d hslot).1
            have hsame : nd3 = nd1 := by
              simp only [nodeOf, hfd2, hkeep, Option.some_bind] at hnd3
              simp only [nodeOf, hslot, Option.some_bind] at hnode
              rw [hnode] at hnd3
              exact (Option.some.inj hnd3).symm
            subst hsame
            exact absurd hino (hno e hmem)
  · intro line w1 h
    rw [h] at hq
    exact hq
  · intro w1 h
    rw [h] at hq
    exact hq
  · intro u w1 h
    rw [h] at hq
    exact hq.1
  · intro pre post hpre hall
    have hs := printDirName_struck post fs fuel fd w ⟨pre, hpre, hall⟩
    cases hrun : printDirName fs fuel fd w with
    | died line w1 =>
      rw [hrun] at hq
      exact Or.inl ⟨line, w1, rfl, hq⟩
    | fuelOut w1 =>
      rw [hrun] at hs
      exact Or.inr hs
    | ok u w1 =>
      rw [hrun] at hs
      exact Or.inr hs
  · intro w1 h1
    have hw := fstat_snd fs fd w
    rw [h1] at hw
    simp only at hw
    refine ⟨?_, by rw [hw]; rfl⟩
    unfold printDirName
    rw [h1]
  · intro st w1 w2 h1 h2
    obtain ⟨-, hw1, -⟩ := fstat_some fs fd w st w1 h1
    have hw2 := openParent_none fs fd w1 w2 h2
    refine ⟨?_, by rw [hw2, hw1]; rfl⟩
    unfold printDirName
    rw [h1]
    simp only
    rw [h2]

/-- Witness for C4: in the tree `/a/b/c`, with a handle on `c`, the `openat` of the
second level is made to fail (the eleventh checked call): the run dies with empty
output.  The run without failure makes 25 checked calls; whichever of them is made to
fail, the run dies with empty output. -/
theorem printDirName_all_or_nothing_witness :
    (∃ line w1, printDirName abcTree 9 0
        ⟨[some 3], "", List.replicate 10 false ++ true :: [], []⟩ = .died line w1 ∧
      w1.out = "") ∧
    (printDirName abcTree 9 0 ⟨[some 3], "", List.replicate 10 false ++ true :: [], []⟩).status
      = .died 158 ∧
    (∀ k, k < 25 →
      (printDirName abcTree 9 0 ⟨[some 3], "", List.replicate k false ++ [true], []⟩).status
          ≠ .returned ∧
      (printDirName abcTree 9 0 ⟨[some 3], "", List.replicate k false ++ [true], []⟩).status
          ≠ .fuelOut ∧
      (printDirName abcTree 9 0 ⟨[some 3], "", List.replicate k false ++ [true], []⟩).world.out
          = "") ∧
    (printDirName abcTree 9 0 ⟨[some 3], "", List.replicate 25 false ++ [true], []⟩).status
      = .returned := by
  refine ⟨?_, by decide, by decide, by decide⟩
  rcases (printDirName_all_or_nothing abcTree 9 0
      ⟨[some 3], "", List.replicate 10 false ++ true :: [], []⟩).2.2.2.2.1
      (List.replicate 10 false) [] rfl (by decide) with h | ⟨pre2, h, -⟩
  · exact h
  · exfalso
    have hleft : (printDirName abcTree 9 0
        ⟨[some 3], "", List.replicate 10 false ++ true :: [], []⟩).world.faults = [] := by
      decide
    rw [hleft] at h
    simp at h

/-! ## Claims about descriptors -/

/-- C10: descriptor use does not depend on the depth.  Whatever the tree, the depth of
the directory, the state and the fault schedule, with `L` the descriptors that are open
when `printDirName` is called: the call appends events `evs` to the log, and at every
point of `evs` the open descriptors are at most two more than `L`.  For `L` empty these
are the descriptors the walker opened itself (at most two); for `L` the caller's handle
alone this is at most three descriptors in all. -/
theorem printDirName_descriptor_bound (fs : FS) (fuel fd : Nat) (w : World) (L : List Nat) :
    ∃ evs, (printDirName fs fuel fd w).world.log = w.log ++ evs ∧
      ∀ p q, evs = p ++ q → (track L p).length ≤ L.length + 2 := by
  unfold printDirName
  split
  · next w1 h =>
    have := fstat_snd fs fd w
    rw [h] at this
    simp only at this
    exact ⟨[], by simp [Res.world, this], within_nil _ _ (by simp)⟩
  · next st w1 h =>
    obtain ⟨-, hw1, -⟩ := fstat_some fs fd _ st w1 h
    have hl1 : w1.log = w.log := by rw [hw1]; rfl
    split
    · next w2 h2 =>
      have := openParent_none fs fd w1 w2 h2
      exact ⟨[], by simp [Res.world, this, hl1], within_nil _ _ (by simp)⟩
    · next g w2 h2 =>
      obtain ⟨-, nd, -, -, hw2⟩ := openParent_some fs fd w1 g w2 h2
      have hl2 : w2.log = w.log ++ [Event.opened g] := by
        rw [hw2]
        simp [hl1]
      obtain ⟨evs, hlog, hw⟩ := printPathToChild_within fs fuel g st.st_ino w2 L
      have hall : Within (L.length + 2) L ([Event.opened g] ++ evs) :=
        within_cons _ _ _ _ (by simp) (by simpa [track] using hw)
      cases hrec : printPathToChild fs fuel g st.st_ino w2 with
      | died line w4 =>
        rw [hrec] at hlog
        simp only [Res.world] at hlog ⊢
        exact ⟨[Event.opened g] ++ evs, by rw [hlog, hl2, List.append_assoc], hall⟩
      | fuelOut w4 =>
        rw [hrec] at hlog
        simp only [Res.world] at hlog ⊢
        exact ⟨[Event.opened g] ++ evs, by rw [hlog, hl2, List.append_assoc], hall⟩
      | ok u w4 =>
        rw [hrec] at hlog
        simp only [Res.world] at hlog ⊢
        refine ⟨([Event.opened g] ++ evs) ++ [Event.wrote "\n"], ?_,
          within_append_wrote _ _ _ "\n" hall⟩
        simp only [printf, hlog, hl2, List.append_assoc]

/-- Witness for C10: in the run on `c` of the tree `/a/b/c`, after the first three
events (`opened 1`, the call, `opened 2`) two walker descriptors are open. -/
theorem printDirName_descriptor_bound_witness :
    (track [] [Event.opened 1, Event.call 1 (some 2) 13, Event.opened 2]).length ≤ 2 := by
  obtain ⟨evs, h1, h2⟩ := printDirName_descriptor_bound abcTree 4 0 (handleOn 3) []
  have hev : evs = [Event.opened 1, Event.call 1 (some 2) 13, Event.opened 2] ++
      [Event.closed 1, Event.call 2 (some 1) 12, Event.opened 1, Event.closed 2,
       Event.call 1 (some 0) 11, Event.opened 2, Event.closed 1, Event.call 2 (some 0) 2,
       Event.wrote "/a", Event.wrote "/b", Event.wrote "/c", Event.wrote "\n"] := by
    have h3 : (printDirName abcTree 4 0 (handleOn 3)).world.log =
        [Event.opened 1, Event.call 1 (some 2) 13, Event.opened 2,
         Event.closed 1, Event.call 2 (some 1) 12, Event.opened 1, Event.closed 2,
         Event.call 1 (some 0) 11, Event.opened 2, Event.closed 1, Event.call 2 (some 0) 2,
         Event.wrote "/a", Event.wrote "/b", Event.wrote "/c", Event.wrote "\n"] := by decide
    rw [h3] at h1
    simpa [handleOn] using h1.symm
  exact h2 _ _ hev

/-! ## Claims about the whole walk -/

/-- C1: in a tree with unique inode numbers where every directory that is not its own
parent is listed in its parent under its name with its own inode number, for a
directory `D` that lies `n` levels below the root (the directory that is its own
parent), with `fd` an open descriptor of `D` and no call failing: `printDirName`
returns (with any fuel above `n`) and has appended to the output exactly
`"/" ++ c1 ++ ... ++ "/" ++ cn ++ "\n"`, where `c1 .. cn` are the names on the way from
the root to `D`, in root-to-leaf order.  (This holds for every `n`; the claim is the case
`n ≥ 1`.) -/
theorem printDirName_prints_path (fs : FS) (n D fd : Nat) (w : World)
    (hU : UniqueIno fs) (hL : Listed fs) (hd : atDepth fs n D = true)
    (hfd : slotGet w.fds fd = some D) (hf : w.faults = []) :
    ∃ w1, (∀ fuel, n < fuel → printDirName fs fuel fd w = .ok () w1) ∧
      w1.out = w.out ++ renderPath (components fs n D) ++ "\n" := by
  obtain ⟨w1, h1, h2, -⟩ := printDirName_chain fs hU hL n D fd w hd hfd hf
  exact ⟨w1, h1, h2⟩

/-- Witness for C1: the tree `/a/b/c` with a handle on `c` prints `/a/b/c` and a newline. -/
theorem printDirName_prints_path_witness :
    components abcTree 3 3 = ["a", "b", "c"] ∧
    ∃ w1, (∀ fuel, 3 < fuel → printDirName abcTree fuel 0 (handleOn 3) = .ok () w1) ∧
      w1.out = "/a/b/c\n" := by
  refine ⟨by decide, ?_⟩
  obtain ⟨w1, h1, h2⟩ := printDirName_prints_path abcTree 3 3 0 (handleOn 3)
    (by decide) abcTree_listed (by decide) (by decide) (by decide)
  refine ⟨w1, h1, ?_⟩
  rw [h2]
  decide

/-- C2 (what the code does): on a handle to the root the walk reaches the base case at
once and prints nothing for the root: the output of the run on the root of the tree
`/a/b/c` is a bare newline, not `"/"` and a newline. -/
theorem printDirName_root_bare_newline :
    printDirName abcTree 4 0 (handleOn 0) =
      .ok () ⟨[some 0, some 0], "\n", [],
        [Event.opened 1, Event.call 1 (some 0) 2, Event.wrote "\n"]⟩ ∧
    (printDirName abcTree 4 0 (handleOn 0)).world.out ≠ "/\n" := by
  decide

/-- C3 (what the code does): a successful run leaves one descriptor open.  On the tree
`/a/b/c` only descriptor 0 is open before the call; after the run on `c` descriptors 0
and 2 are open, after the run on the root descriptors 0 and 1; and the base case of
`printPathToChild` (descriptor 1 on the root, child inode 2) returns with the
descriptor it was given still open. -/
theorem printDirName_leaves_descriptor_open :
    slotOpen (handleOn 3).fds = [0] ∧
    (printDirName abcTree 4 0 (handleOn 3)).status = .returned ∧
    slotOpen (printDirName abcTree 4 0 (handleOn 3)).world.fds = [0, 2] ∧
    (printDirName abcTree 4 0 (handleOn 0)).status = .returned ∧
    slotOpen (printDirName abcTree 4 0 (handleOn 0)).world.fds = [0, 1] ∧
    printPathToChild abcTree 1 1 2 ⟨[some 0, some 0], "", [], []⟩ =
      .ok () ⟨[some 0, some 0], "", [], [Event.call 1 (some 0) 2]⟩ := by
  decide

/-- C9: termination.  For a directory `D` that lies `n` levels below the root and a
descriptor `fd` of `D`: whatever fails, `n + 1` invocations of `printPathToChild` are
always enough, so the walk never climbs past the root.  When moreover inode numbers are
unique, directories are listed in their parents and no call fails, the run returns,
its invocations are exactly the `n + 1` steps of the climb from `D` (the first made by
`printDirName`, then `n` recursive ones, each on the parent of the directory before),
the last of them is the base case on the root for the root's own inode number, and `n`
invocations are not enough. -/
theorem printPathToChild_terminates (fs : FS) (n D fd : Nat) (w : World)
    (hd : atDepth fs n D = true) (hfd : slotGet w.fds fd = some D) :
    (∀ w9, printDirName fs (n + 1) fd w ≠ .fuelOut w9) ∧
    (UniqueIno fs → Listed fs → w.faults = [] →
      ∃ w1, (∀ fuel, n < fuel → printDirName fs fuel fd w = .ok () w1) ∧
        callsOf w1.log = callsOf w.log ++ climb fs (n + 1) D ∧
        (climb fs (n + 1) D).length = n + 1 ∧
        (∃ R nR, fs[R]? = some nR ∧ nR.parent = R ∧
          (climb fs (n + 1) D).getLast? = some (some R, nR.st_ino)) ∧
        ∃ w2, printDirName fs n fd w = .fuelOut w2) := by
  constructor
  · intro w9
    obtain ⟨nD, hD⟩ := atDepth_node fs n D hd
    unfold printDirName
    split
    · simp
    · next st w1 h =>
      obtain ⟨-, hw1, nd, hnd, hst⟩ := fstat_some fs fd _ st w1 h
      have hndD : nd = nD := by
        simp only [nodeOf, hfd, Option.some_bind, hD] at hnd
        exact (Option.some.inj hnd).symm
      subst hndD
      have hfd1 : w1.fds = w.fds := by rw [hw1]; rfl
      split
      · simp
      · next g w2 h2 =>
        obtain ⟨-, nd2, hnd2, hg, hw2⟩ := openParent_some fs fd w1 g w2 h2
        have hnd2D : nd2 = nd := by
          simp only [nodeOf, hfd1, hfd, Option.some_bind, hD] at hnd2
          exact (Option.some.inj hnd2).symm
        subst hnd2D
        have hslot : slotGet w2.fds g = some nd2.parent := by
          rw [hw2, hg]
          exact slotGet_alloc_new _ _
        have hrec := fun w8 => printPathToChild_bounded fs n D nd2 g w2 w8 hd hD hslot
        rw [hst]
        cases hr : printPathToChild fs (n + 1) g nd2.st_ino w2 with
        | died line w4 => simp
        | fuelOut w4 => exact absurd hr (hrec w4)
        | ok u w4 => simp
  · intro hU hL hf
    obtain ⟨w1, h1, -, -, h4, h5⟩ := printDirName_chain fs hU hL n D fd w hd hfd hf
    obtain ⟨hlen, hlast⟩ := climb_last fs n D hd
    exact ⟨w1, h1, h4, hlen, hlast, h5⟩

/-- Witness for C9: the walk from `c` in the tree `/a/b/c` makes four invocations, on
`b`, on `a`, on the root and on the root again. -/
theorem printPathToChild_terminates_witness :
    climb abcTree 4 3 = [(some 2, 13), (some 1, 12), (some 0, 11), (some 0, 2)] ∧
    (∀ w9, printDirName abcTree 4 0 (handleOn 3) ≠ .fuelOut w9) ∧
    ∃ w1, (∀ fuel, 3 < fuel → printDirName abcTree fuel 0 (handleOn 3) = .ok () w1) ∧
      callsOf w1.log = callsOf (handleOn 3).log ++ climb abcTree 4 3 ∧
      ∃ w2, printDirName abcTree 3 0 (handleOn 3) = .fuelOut w2 := by
  have h := printPathToChild_terminates abcTree 3 3 0 (handleOn 3) (by decide) (by decide)
  obtain ⟨w1, h1, h2, -, -, h5⟩ := h.2 (by decide) abcTree_listed (by decide)
  exact ⟨by decide, h.1, w1, h1, h2, h5⟩

/-! ## Claims about order and identity -/

/-- C7: order independence.  Two runs of `printDirName` over the same tree, where on the
second run every directory may yield its entries in another order and inode numbers are
unique within each listing (the entries bearing the number of the listed directory
itself, such as `.`, may repeat it), on two descriptors `fd1`, `fd2` of the same
directory `D` (in two states of the process, without faults), write the same text `s`
and end the same way. -/
theorem printDirName_order_independent (fs1 fs2 : FS) (fuel D fd1 fd2 : Nat) (w1 w2 : World)
    (hS : SameTree fs1 fs2) (hN : UniqueInListing fs1)
    (h1 : slotGet w1.fds fd1 = some D) (h2 : slotGet w2.fds fd2 = some D)
    (hf1 : w1.faults = []) (hf2 : w2.faults = []) :
    ∃ s, (printDirName fs1 fuel fd1 w1).world.out = w1.out ++ s ∧
      (printDirName fs2 fuel fd2 w2).world.out = w2.out ++ s ∧
      (printDirName fs1 fuel fd1 w1).status = (printDirName fs2 fuel fd2 w2).status := by
  rcases sameTree_get fs1 fs2 hS D with ⟨n1, n2⟩ | ⟨a, b, n1, n2, -, hino, hpar, -⟩
  · have e1 := fstat_noFault_none fs1 fd1 w1 hf1 (by simp [nodeOf, h1, n1])
    have e2 := fstat_noFault_none fs2 fd2 w2 hf2 (by simp [nodeOf, h2, n2])
    have E1 : printDirName fs1 fuel fd1 w1 = .died 180 w1 := by
      unfold printDirName
      rw [e1]
    have E2 : printDirName fs2 fuel fd2 w2 = .died 180 w2 := by
      unfold printDirName
      rw [e2]
    rw [E1, E2]
    exact ⟨"", by simp [Res.world], by simp [Res.world], by simp [Res.status]⟩
  · have hn1 : nodeOf fs1 w1 fd1 = some a := by simp [nodeOf, h1, n1]
    have hn2 : nodeOf fs2 w2 fd2 = some b := by simp [nodeOf, h2, n2]
    have e1 := fstat_noFault fs1 fd1 w1 hf1 a hn1
    have e2 := fstat_noFault fs2 fd2 w2 hf2 b hn2
    have o1 := openParent_noFault fs1 fd1 w1 hf1 a hn1
    have o2 := openParent_noFault fs2 fd2 w2 hf2 b hn2
    have E1 : printDirName fs1 fuel fd1 w1 =
        match printPathToChild fs1 fuel (slotAlloc a.parent w1.fds).2 a.st_ino
          { w1 with
            fds := (slotAlloc a.parent w1.fds).1
            log := w1.log ++ [Event.opened (slotAlloc a.parent w1.fds).2] } with
        | .died line w3 => .died line w3
        | .fuelOut w3 => .fuelOut w3
        | .ok _ w3 => .ok () (printf "\n" w3) := by
      unfold printDirName
      rw [e1]
      simp only
      rw [o1]
    have E2 : printDirName fs2 fuel fd2 w2 =
        match printPathToChild fs2 fuel (slotAlloc b.parent w2.fds).2 a.st_ino
          { w2 with
            fds := (slotAlloc b.parent w2.fds).1
            log := w2.log ++ [Event.opened (slotAlloc b.parent w2.fds).2] } with
        | .died line w3 => .died line w3
        | .fuelOut w3 => .fuelOut w3
        | .ok _ w3 => .ok () (printf "\n" w3) := by
      unfold printDirName
      rw [e2]
      simp only
      rw [o2, hino]
    obtain ⟨s, r1, r2, r3⟩ := printPathToChild_sim fs1 fs2 hS hN fuel
      (slotAlloc a.parent w1.fds).2 (slotAlloc b.parent w2.fds).2 a.st_ino
      { w1 with
        fds := (slotAlloc a.parent w1.fds).1
        log := w1.log ++ [Event.opened (slotAlloc a.parent w1.fds).2] }
      { w2 with
        fds := (slotAlloc b.parent w2.fds).1
        log := w2.log ++ [Event.opened (slotAlloc b.parent w2.fds).2] }
      ((slotGet_alloc_new _ _).trans (by rw [hpar]; exact (slotGet_alloc_new _ _).symm))
      hf1 hf2
    rw [E1, E2]
    revert r1 r2 r3
    generalize printPathToChild fs1 fuel _ a.st_ino _ = R1
    generalize printPathToChild fs2 fuel _ a.st_ino _ = R2
    intro r1 r2 r3
    cases R1 with
    | ok u1 x1 =>
      cases R2 with
      | ok u2 x2 =>
        simp only [Res.world] at r1 r2
        exact ⟨s ++ "\n",
          by simp only [Res.world, printf, r1, String.append_assoc],
          by simp only [Res.world, printf, r2, String.append_assoc], rfl⟩
      | died l2 x2 => simp [Res.status] at r3
      | fuelOut x2 => simp [Res.status] at r3
    | died l1 x1 =>
      cases R2 with
      | ok u2 x2 => simp [Res.status] at r3
      | died l2 x2 => exact ⟨s, r1, r2, r3⟩
      | fuelOut x2 => simp [Res.status] at r3
    | fuelOut x1 =>
      cases R2 with
      | ok u2 x2 => simp [Res.status] at r3
      | died l2 x2 => simp [Res.status] at r3
      | fuelOut x2 => exact ⟨s, r1, r2, rfl⟩

/-- Witness for C7: a first run on `c` in the tree `/a/b/c`, whose listings hold `.` and
`..`, and a second run, on another descriptor of `c`, in the state the first run left
and with every listing shuffled. -/
theorem printDirName_order_independent_witness :
    (printDirName abcTree 4 0 (handleOn 3)).world.out = "/a/b/c\n" ∧
    ∃ s, (printDirName abcTree 4 0 (handleOn 3)).world.out = "" ++ s ∧
      (printDirName abcTreeShuffled 4 3
          ⟨[some 3, none, some 0, some 3], "/a/b/c\n", [], []⟩).world.out
        = "/a/b/c\n" ++ s ∧
      (printDirName abcTree 4 0 (handleOn 3)).status =
        (printDirName abcTreeShuffled 4 3
          ⟨[some 3, none, some 0, some 3], "/a/b/c\n", [], []⟩).status :=
  ⟨by decide,
   printDirName_order_independent abcTree abcTreeShuffled 4 3 0 3 (handleOn 3)
    ⟨[some 3, none, some 0, some 3], "/a/b/c\n", [], []⟩
    ⟨⟨rfl, rfl, rfl, rfl, by decide⟩, ⟨rfl, rfl, rfl, rfl, by decide⟩,
     ⟨rfl, rfl, rfl, rfl, by decide⟩, ⟨rfl, rfl, rfl, rfl, by decide⟩, trivial⟩
    (by unfold UniqueInListing; decide) rfl rfl rfl rfl⟩

/-- C8 (counterexample): the root of a filesystem mounted on `/mnt` has the inode number
of its parent, the root, on another device; the walk from `mnt` takes the base case on
its first invocation and prints a bare newline, no component for `mnt`; and the walk
from `/mnt/x` prints `/x`. -/
theorem printDirName_ignores_device :
    (mountTree[1]?.map (fun nd => (nd.st_dev, nd.st_ino, nd.parent))) = some (1, 2, 0) ∧
    (mountTree[0]?.map (fun nd => (nd.st_dev, nd.st_ino))) = some (0, 2) ∧
    printDirName mountTree 4 0 (handleOn 1) =
      .ok () ⟨[some 1, some 0], "\n", [],
        [Event.opened 1, Event.call 1 (some 0) 2, Event.wrote "\n"]⟩ ∧
    (printDirName mountTree 4 0 (handleOn 2)).world.out = "/x\n" := by
  decide

/-- C8 (amended): the base-case test compares inode numbers only.  Once `fstat` on the
descriptor succeeded with `st`, whatever `st.st_dev` is: when `st.st_ino` is the child
inode number, `printPathToChild` returns at once and has written nothing; when it is
not, every run that returns has written `"/"` and a component after what the levels
above wrote, so its output has grown. -/
theorem printPathToChild_base_iff_ino (fs : FS) (fuel parentfd childinode : Nat)
    (w w1 : World) (st : Stat)
    (h : fstat fs parentfd
      { w with log := w.log ++ [Event.call parentfd (slotGet w.fds parentfd) childinode] }
        = (some st, w1)) :
    (st.st_ino = childinode →
      printPathToChild fs (fuel + 1) parentfd childinode w = .ok () w1 ∧ w1.out = w.out) ∧
    (st.st_ino ≠ childinode → ∀ u w9,
      printPathToChild fs (fuel + 1) parentfd childinode w = .ok u w9 →
        (∃ s comp, w9.out = w.out ++ s ++ ("/" ++ comp)) ∧ w9.out ≠ w.out) := by
  obtain ⟨-, hw1, -⟩ := fstat_some fs parentfd _ st w1 h
  have ho1 : w1.out = w.out := by rw [hw1]; rfl
  constructor
  · intro heq
    exact ⟨printPathToChild_base fs fuel parentfd childinode w w1 st h heq, ho1⟩
  · intro hne u w9 hrun
    have key : ∃ s comp, w9.out = w.out ++ s ++ ("/" ++ comp) := by
      rw [printPathToChild, h] at hrun
      simp only [hne, ne_eq, not_false_eq_true, if_true] at hrun
      split at hrun
      · simp at hrun
      · next g w2 h2 =>
        obtain ⟨-, nd, -, -, hw2⟩ := openParent_some fs parentfd w1 g w2 h2
        have ho2 : w2.out = w.out := by rw [hw2]; exact ho1
        rcases findNameByInode_cases fs parentfd childinode w2 with
          ⟨line, w3, h3, -, -, -⟩ | ⟨comp, rest, w3, h3, e1, -, -, -⟩
        · rw [h3] at hrun
          simp at hrun
        · rw [h3] at hrun
          simp only at hrun
          have hq := printPathToChild_quiet fs fuel g st.st_ino (closedir ⟨parentfd, rest⟩ w3)
          cases hrec : printPathToChild fs fuel g st.st_ino (closedir ⟨parentfd, rest⟩ w3) with
          | died line w4 => rw [hrec] at hrun; simp at hrun
          | fuelOut w4 => rw [hrec] at hrun; simp at hrun
          | ok u4 w4 =>
            rw [hrec] at hrun hq
            simp only [Res.ok.injEq, true_and] at hrun
            obtain ⟨-, s, hs⟩ := hq
            refine ⟨s, comp, ?_⟩
            rw [← hrun]
            simp only [printf, hs, closedir, e1, ho2]
    refine ⟨key, ?_⟩
    obtain ⟨s, comp, hk⟩ := key
    intro heq
    have hlen := congrArg String.length (hk.symm.trans heq)
    simp only [String.length_append] at hlen
    have : ("/" : String).length = 1 := by decide
    omega

/-- Witness for C8 (amended): on the mounted tree, the invocation on the root for the
child inode 2 (the root of the mounted filesystem) is a base case, and the invocation
on `mnt` for the child inode 5 is not. -/
theorem printPathToChild_base_iff_ino_witness :
    (printPathToChild mountTree 1 1 2 ⟨[some 1, some 0], "", [], []⟩ =
        .ok () ⟨[some 1, some 0], "", [], [Event.call 1 (some 0) 2]⟩ ∧
      (⟨[some 1, some 0], "", [], [Event.call 1 (some 0) 2]⟩ : World).out = "") ∧
    (∃ s comp, (printPathToChild mountTree 3 1 5 ⟨[some 2, some 1], "", [], []⟩).world.out =
        "" ++ s ++ ("/" ++ comp)) :=
  ⟨(printPathToChild_base_iff_ino mountTree 0 1 2 ⟨[some 1, some 0], "", [], []⟩
      ⟨[some 1, some 0], "", [], [Event.call 1 (some 0) 2]⟩ ⟨0, 2⟩ (by decide)).1 (by decide),
   ((printPathToChild_base_iff_ino mountTree 2 1 5 ⟨[some 2, some 1], "", [], []⟩
      ⟨[some 2, some 1], "", [], [Event.call 1 (some 1) 5]⟩ ⟨1, 2⟩ (by decide)).2 (by decide)
      () (printPathToChild mountTree 3 1 5 ⟨[some 2, some 1], "", [], []⟩).world
      (by decide)).1⟩

end Mypwd
